import Mathlib

/-!
Shallow embedding of the `Scalarize` compiler pass of `src/lib/src/scalar.rs`.

The pass rewrites a tensor-level dataflow graph into a scalar graph: every
node is replaced by as many scalar "little nodes" as its physical output has
elements.  Nodes and edges live in a stable arena; the embedding allocates
identifiers from a monotone counter, which realises the only property the
source relies on: identifiers of live nodes/edges are pairwise distinct.

Shape trackers follow the per-edge contract the pass depends on: a static
dimension list (broadcast dimensions flagged), an index expression and a
validity expression over one free variable.  Constant payloads are `f32`
literals in the source; the pass only copies them around and never computes
with them, so they are embedded as an opaque integer carrier.
-/

namespace ZkmlScalar

/-- A tensor dimension: statically known, or dynamic (shape known only at
runtime, which the pass rejects). -/
inductive Dim where
  | known : Nat → Dim
  | dynVar : Dim
deriving DecidableEq

/-- Index expressions in one free variable, as used by a Shape Tracker to map
a logical index to a physical offset (`indexExpr`) or to a validity bit
(`validExpr`, nonzero means valid). -/
inductive IdxExpr where
  | var : IdxExpr
  | lit : Nat → IdxExpr
  | addE : IdxExpr → IdxExpr → IdxExpr
  | mulE : IdxExpr → IdxExpr → IdxExpr
  | divE : IdxExpr → IdxExpr → IdxExpr
  | modE : IdxExpr → IdxExpr → IdxExpr
  | ltE : IdxExpr → IdxExpr → IdxExpr
  | andE : IdxExpr → IdxExpr → IdxExpr
deriving DecidableEq

/-- Evaluate an index expression at the single free variable. -/
def IdxExpr.exec : IdxExpr → Nat → Nat
  | .var, z => z
  | .lit n, _ => n
  | .addE a b, z => a.exec z + b.exec z
  | .mulE a b, z => a.exec z * b.exec z
  | .divE a b, z => a.exec z / b.exec z
  | .modE a b, z => a.exec z % b.exec z
  | .ltE a b, z => if a.exec z < b.exec z then 1 else 0
  | .andE a b, z => if a.exec z = 0 ∨ b.exec z = 0 then 0 else 1

/-- Per-edge shape descriptor: logical dimension list, broadcast flags
(`fake`), and the logical-to-physical index/validity expressions. -/
structure ShapeTracker where
  dims : List Dim
  fake : List Bool
  indexExpr : IdxExpr
  validExpr : IdxExpr
deriving DecidableEq

/-- The trivial rank-0 tracker (`R0::to_tracker()`): single scalar, always
valid, physical offset 0. -/
def R0 : ShapeTracker := ⟨[], [], .lit 0, .lit 1⟩

/-- Product of a dimension list, defined only when all dims are static. -/
def dimsProd : List Dim → Option Nat
  | [] => some 1
  | .known n :: rest => (dimsProd rest).map (fun m => n * m)
  | .dynVar :: _ => none

/-- Logical element count (`ShapeTracker::n_elements`). -/
def ShapeTracker.n_elements (s : ShapeTracker) : Option Nat :=
  dimsProd s.dims

/-- Physical element count (`ShapeTracker::n_physical_elements`): broadcast
(`fake`) dimensions are not materialised. -/
def ShapeTracker.n_physical_elements (s : ShapeTracker) : Option Nat :=
  dimsProd ((s.dims.zip s.fake).filterMap (fun p => if p.2 then none else some p.1))

/-- Static dimension list (`ShapeTracker::shape_usize`); fails on dynamic
dims, which the source unwraps. -/
def ShapeTracker.shape_usize (s : ShapeTracker) : Option (List Nat) :=
  s.dims.mapM (fun d => match d with | .known n => some n | .dynVar => none)

/-- Operation kinds of the tensor graph, plus the scalar marker ops the pass
introduces (`InputOp`, `ConstantOp`, `Max`). -/
inductive Op where
  | function
  | constant : Int → Op
  | recip
  | addOp
  | mulOp
  | lessThan
  | sumReduce : Nat → Op
  | maxReduce : Nat → Op
  | inputOp
  | constantOp
  | maxOp
  | otherOp
deriving DecidableEq

/-- Payload of a `Dependency::Data` edge. -/
structure EdgeData where
  src : Nat
  tgt : Nat
  input_order : Nat
  output_order : Nat
  shape : ShapeTracker
deriving DecidableEq

/-- The dataflow graph: nodes and data edges in insertion order, the
retrieval map, and the arena's allocation counters. -/
structure Graph where
  nodes : List (Nat × Op)
  edges : List (Nat × EdgeData)
  to_retrieve : List (Nat × (Nat × ShapeTracker))
  nextNode : Nat
  nextEdge : Nat
deriving DecidableEq

/-- Association-list lookup (first match), the embedding of `HashMap` reads. -/
def alookup {β : Type} : List (Nat × β) → Nat → Option β
  | [], _ => none
  | (k, v) :: rest, a => if k = a then some v else alookup rest a

/-- Association-list insert-or-overwrite, the embedding of `HashMap::insert`. -/
def ainsert {β : Type} (l : List (Nat × β)) (k : Nat) (v : β) : List (Nat × β) :=
  (k, v) :: l.filter (fun p => p.1 ≠ k)

def Graph.addNode (g : Graph) (op : Op) : Nat × Graph :=
  (g.nextNode,
   { g with nodes := g.nodes ++ [(g.nextNode, op)], nextNode := g.nextNode + 1 })

def Graph.addEdge (g : Graph) (d : EdgeData) : Nat × Graph :=
  (g.nextEdge,
   { g with edges := g.edges ++ [(g.nextEdge, d)], nextEdge := g.nextEdge + 1 })

/-- `StableGraph::remove_node`: drops the node and every incident edge. -/
def Graph.removeNode (g : Graph) (x : Nat) : Graph :=
  { g with
    nodes := g.nodes.filter (fun p => p.1 ≠ x),
    edges := g.edges.filter (fun p => p.2.src ≠ x ∧ p.2.tgt ≠ x) }

/-- Outgoing data edges of `x` (adjacency iteration yields newest first). -/
def Graph.outData (g : Graph) (x : Nat) : List (Nat × EdgeData) :=
  (g.edges.filter (fun p => p.2.src = x)).reverse

/-- Incoming data edges of `x` (newest first). -/
def Graph.inData (g : Graph) (x : Nat) : List (Nat × EdgeData) :=
  (g.edges.filter (fun p => p.2.tgt = x)).reverse

/-- The failure conditions of the pass; every `panic!`/`assert!`/`unwrap`
site of the source is one constructor. -/
inductive ScalarError where
  | nonUniformOutgoingShapes
  | noOutgoingNotRetrieval
  | nonStaticShape
  | toposortCycle
  | missingSize
  | missingNode
  | missingEdgeIndex
  | indexOutOfPhysicalRange
  | littleIndexOutOfRange
  | dynamicDimension
  | pointwiseSizeMismatch
  | axisOutOfRange
  | degenerateReduceAxis
  | reduceFromOutputNonzero
  | reduceSizeMismatch
  | reduceFrontBackMismatch
  | reduceIndexDecompositionBroken
  | nonScalarConstant
  | unsupportedSourceNode
  | unsupportedUnaryOp
  | unsupportedBinaryOp
  | unsupportedArity
  | retrieveOutputNonzero
deriving DecidableEq

/-- `logical_to_physical`: resolve a logical index through an edge's index
and validity expressions. -/
def logical_to_physical (ind val : IdxExpr) (index : Nat) : Option Nat :=
  if val.exec index ≠ 0 then some (ind.exec index) else none

/-- `get_own_shape` inside `Scalarize::compile`: a retrieval-marked node uses
its declared shape, otherwise the first outgoing data edge's tracker;
otherwise the source panics. -/
def get_own_shape (g : Graph) (x : Nat) : Except ScalarError ShapeTracker :=
  match alookup g.to_retrieve x with
  | some w => .ok w.2
  | none =>
    match g.outData x with
    | [] => .error .noOutgoingNotRetrieval
    | e :: _ => .ok e.2.shape

/-- `get_own_size`: physical element count of the node's own shape; panics in
the source when the shape is not static. -/
def get_own_size (g : Graph) (x : Nat) : Except ScalarError Nat :=
  match get_own_shape g x with
  | .error e => .error e
  | .ok sh =>
    match sh.n_physical_elements with
    | some n => .ok n
    | none => .error .nonStaticShape

/-- `make_nodes`: create `size` little nodes carrying the same op. -/
def make_nodes : Nat → Op → Graph → (List Nat × Graph)
  | 0, _, g => ([], g)
  | n + 1, op, g =>
    let p := g.addNode op
    let r := make_nodes n op p.2
    (p.1 :: r.1, r.2)

abbrev Esi := List (Nat × Nat)

/-- Loop body of `connect_out_edges`: for each collected outgoing edge, look
up its recorded logical index, resolve it to a physical index, and add a
trivial-shape edge from the selected little node to the old target. -/
def connect_out_go (littleNodes : List Nat) (esi : Esi) :
    List (Nat × EdgeData) → Graph → Except ScalarError Graph
  | [], g => .ok g
  | (e, d) :: rest, g =>
    match alookup esi e with
    | none => .error .missingEdgeIndex
    | some logicalIndex =>
      match logical_to_physical d.shape.indexExpr d.shape.validExpr logicalIndex with
      | none => .error .indexOutOfPhysicalRange
      | some phys =>
        match littleNodes.get? phys with
        | none => .error .littleIndexOutOfRange
        | some ln =>
          let p := g.addEdge ⟨ln, d.tgt, d.input_order, d.output_order, R0⟩
          connect_out_go littleNodes esi rest p.2

/-- `connect_out_edges`: collect `x`'s outgoing data edges, then reconnect
each to the little node its recorded logical index resolves to. -/
def connect_out_edges (x : Nat) (littleNodes : List Nat) (esi : Esi)
    (g : Graph) : Except ScalarError Graph :=
  connect_out_go littleNodes esi (g.outData x) g

/-- Inner loop of `pointwise_op` over `j in 0..k` for one incoming edge:
record the index under the old edge's id `e` (as the source does), then add
the operand edge into little node `j`, keeping the original shape. -/
def pointwise_inner (e : Nat) (src : Nat) (b oo : Nat) (sh : ShapeTracker)
    (littleNodes : List Nat) :
    List Nat → Esi → Graph → Except ScalarError (Esi × Graph)
  | [], esi, g => .ok (esi, g)
  | j :: js, esi, g =>
    let esi1 := ainsert esi e j
    match littleNodes.get? j with
    | none => .error .littleIndexOutOfRange
    | some ln =>
      let p := g.addEdge ⟨src, ln, b, oo, sh⟩
      pointwise_inner e src b oo sh littleNodes js esi1 p.2

/-- Outer loop of `pointwise_op` over the incoming edges. -/
def pointwise_incoming (size : Nat) (littleNodes : List Nat) :
    List (Nat × EdgeData) → Esi → Graph → Except ScalarError (Esi × Graph)
  | [], esi, g => .ok (esi, g)
  | (e, d) :: rest, esi, g =>
    match d.shape.n_elements with
    | none => .error .dynamicDimension
    | some k =>
      if k = size then
        match pointwise_inner e d.src d.input_order d.output_order d.shape
            littleNodes (List.range k) esi g with
        | .error er => .error er
        | .ok (esi1, g1) => pointwise_incoming size littleNodes rest esi1 g1
      else .error .pointwiseSizeMismatch

/-- Result of one handler: the little nodes, the updated edge-index table,
and the updated graph. -/
structure StepOut where
  little : List Nat
  esi : Esi
  graph : Graph
deriving DecidableEq

/-- `pointwise_op`: make `size` little nodes, reconnect outgoing edges, then
wire operand element `j` into little node `j` for every incoming edge. -/
def pointwise_op (op : Op) (x : Nat) (size : Nat)
    (incoming : List (Nat × EdgeData)) (esi : Esi) (g : Graph) :
    Except ScalarError StepOut :=
  let p := make_nodes size op g
  match connect_out_edges x p.1 esi p.2 with
  | .error e => .error e
  | .ok g2 =>
    match pointwise_incoming size p.1 incoming esi g2 with
    | .error e => .error e
    | .ok (esi1, g3) => .ok ⟨p.1, esi1, g3⟩

/-- Fold of `create_reduce_circuit` over the axis positions: each step makes
one chain node, wires the accumulator in at slot 0 and the source `y` in at
slot 1, and records the precomputed logical index of that axis element under
the freshly created slot-1 edge. -/
def reduce_chain (op : Op) (y : Nat) :
    List Nat → Nat → Esi → Graph → (Nat × Esi × Graph)
  | [], acc, esi, g => (acc, esi, g)
  | k :: ks, acc, esi, g =>
    let pn := g.addNode op
    let pl := pn.2.addEdge ⟨acc, pn.1, 0, 0, R0⟩
    let pr := pl.2.addEdge ⟨y, pn.1, 1, 0, R0⟩
    reduce_chain op y ks pn.1 (ainsert esi pr.1 k) pr.2

/-- Loop of `reduce_op` over the output positions `i in 0..size`, using the
source's decomposition `front_i = i / front_size`, `back_i = i % front_size`
and axis-element indices `front_i * back_size * ax_len + k * back_size +
back_i`. -/
def reduce_positions (op : Op) (y : Nat) (frontSize backSize axLen : Nat) :
    List Nat → Esi → Graph → Except ScalarError (List Nat × Esi × Graph)
  | [], esi, g => .ok ([], esi, g)
  | i :: is, esi, g =>
    let frontI := i / frontSize
    let backI := i % frontSize
    if frontI * frontSize + backI = i then
      let xs := (List.range axLen).map
        (fun k => frontI * backSize * axLen + k * backSize + backI)
      let r := reduce_chain op y xs y esi g
      match reduce_positions op y frontSize backSize axLen is r.2.1 r.2.2 with
      | .error e => .error e
      | .ok (lns, esi2, g2) => .ok (r.1 :: lns, esi2, g2)
    else .error .reduceIndexDecompositionBroken

/-- `reduce_op`: check the axis, build one fold chain per output position
(seeded with the unexpanded source node `y` itself), then reconnect the
outgoing edges. -/
def reduce_op (op : Op) (x : Nat) (size ax : Nat) (yy : Nat × EdgeData)
    (esi : Esi) (g : Graph) : Except ScalarError StepOut :=
  let d := yy.2
  match d.shape.shape_usize with
  | none => .error .dynamicDimension
  | some dims =>
    match dims.get? ax with
    | none => .error .axisOutOfRange
    | some axLen =>
      let frontSize := max (dims.take ax).prod 1
      let backSize := max (dims.drop (ax + 1)).prod 1
      if axLen > 1 then
        if d.output_order = 0 then
          match d.shape.n_elements with
          | none => .error .dynamicDimension
          | some nel =>
            if size = nel / axLen then
              if size = frontSize * backSize then
                match reduce_positions op d.src frontSize backSize axLen
                    (List.range size) esi g with
                | .error e => .error e
                | .ok (little, esi1, g1) =>
                  match connect_out_edges x little esi1 g1 with
                  | .error e => .error e
                  | .ok g2 => .ok ⟨little, esi1, g2⟩
              else .error .reduceFrontBackMismatch
            else .error .reduceSizeMismatch
        else .error .reduceFromOutputNonzero
      else .error .degenerateReduceAxis

/-- `InputsTracker`: original input node ↦ its replacement list, and (keyed
as the source keys it) constant-marker node ↦ literal value. -/
structure InputsTracker where
  new_inputs : List (Nat × List Nat)
  constants : List (Nat × Int)
deriving DecidableEq

/-- `mark_retrieve`: if `x` is retrieval-marked (output slot must be 0),
mark every little node for retrieval with the trivial shape. -/
def mark_retrieve (x : Nat) (newXs : List Nat) (g : Graph) :
    Except ScalarError Graph :=
  match alookup g.to_retrieve x with
  | none => .ok g
  | some w =>
    if w.1 = 0 then
      .ok { g with
            to_retrieve := newXs.foldl (fun t y => ainsert t y (0, R0)) g.to_retrieve }
    else .error .retrieveOutputNonzero

/-- Stable insertion step for sorting incoming edges by input slot. -/
def insertByInput (p : Nat × EdgeData) :
    List (Nat × EdgeData) → List (Nat × EdgeData)
  | [] => [p]
  | q :: rest =>
    if p.2.input_order ≤ q.2.input_order then p :: q :: rest
    else q :: insertByInput p rest

/-- Stable sort of the incoming edge list by declared input slot
(`sorted_by_key` in the source). -/
def sortByInput : List (Nat × EdgeData) → List (Nat × EdgeData)
  | [] => []
  | p :: rest => insertByInput p (sortByInput rest)

/-- Size precomputation loop: `get_own_size` for every node of the untouched
graph, in node order. -/
def compute_sizes_go (g : Graph) :
    List (Nat × Op) → Except ScalarError (List (Nat × Nat))
  | [] => .ok []
  | (x, _) :: rest =>
    match get_own_size g x with
    | .error e => .error e
    | .ok n =>
      match compute_sizes_go g rest with
      | .error e => .error e
      | .ok l => .ok ((x, n) :: l)

/-- The `sizes` map: every node's physical size, computed before any graph
mutation. -/
def compute_sizes (g : Graph) : Except ScalarError (List (Nat × Nat)) :=
  compute_sizes_go g g.nodes

/-- A node is ready for topological emission when no edge reaches it from a
still-remaining node. -/
def noIncomingFrom (g : Graph) (remaining : List Nat) (n : Nat) : Bool :=
  g.edges.all (fun p => p.2.tgt ≠ n || ¬ remaining.contains p.2.src)

/-- First ready node in the candidate list. -/
def pickReady (g : Graph) (remaining : List Nat) :
    List Nat → Option Nat
  | [] => none
  | n :: rest =>
    if noIncomingFrom g remaining n then some n else pickReady g remaining rest

/-- Fuel-bounded Kahn emission; the source unwraps `petgraph::algo::toposort`
so a cycle is a hard failure. -/
def toposort_go (g : Graph) :
    Nat → List Nat → List Nat → Except ScalarError (List Nat)
  | 0, remaining, acc =>
    if remaining.isEmpty then .ok acc.reverse else .error .toposortCycle
  | fuel + 1, remaining, acc =>
    match pickReady g remaining remaining with
    | none =>
      if remaining.isEmpty then .ok acc.reverse else .error .toposortCycle
    | some n =>
      toposort_go g fuel (remaining.filter (fun m => m ≠ n)) (n :: acc)

/-- Deterministic topological order of the node identifiers. -/
def toposort (g : Graph) : Except ScalarError (List Nat) :=
  toposort_go g g.nodes.length (g.nodes.map Prod.fst) []

/-- Process one node `x` of the reverse topological order: collect and sort
its incoming data edges, dispatch on arity and op kind, mark retrieval, and
delete `x`.  Also returns the replacement (little node) list of `x`. -/
def scalarize_step (sizes : List (Nat × Nat)) (x : Nat) (esi : Esi)
    (tracker : InputsTracker) (g : Graph) :
    Except ScalarError (List Nat × Esi × InputsTracker × Graph) :=
  let incoming := sortByInput (g.inData x)
  match alookup sizes x with
  | none => .error .missingSize
  | some size =>
    match alookup g.nodes x with
    | none => .error .missingNode
    | some op =>
      let handled : Except ScalarError (List Nat × Esi × InputsTracker × Graph) :=
        match incoming with
        | [] =>
          match op with
          | .function =>
            let p := make_nodes size .inputOp g
            match connect_out_edges x p.1 esi p.2 with
            | .error e => .error e
            | .ok g2 =>
              .ok (p.1, esi,
                   { tracker with new_inputs := ainsert tracker.new_inputs x p.1 },
                   g2)
          | .constant v =>
            let p := make_nodes size .constantOp g
            match connect_out_edges x p.1 esi p.2 with
            | .error e => .error e
            | .ok g2 =>
              if p.1.length = 1 then
                .ok (p.1, esi,
                     { tracker with
                       constants := p.1.foldl (fun cs y => ainsert cs y v) tracker.constants },
                     g2)
              else .error .nonScalarConstant
          | _ => .error .unsupportedSourceNode
        | [yy] =>
          match op with
          | .recip =>
            match pointwise_op .recip x size incoming esi g with
            | .error e => .error e
            | .ok r => .ok (r.little, r.esi, tracker, r.graph)
          | .sumReduce ax =>
            match reduce_op .addOp x size ax yy esi g with
            | .error e => .error e
            | .ok r => .ok (r.little, r.esi, tracker, r.graph)
          | .maxReduce ax =>
            match reduce_op .maxOp x size ax yy esi g with
            | .error e => .error e
            | .ok r => .ok (r.little, r.esi, tracker, r.graph)
          | _ => .error .unsupportedUnaryOp
        | [_, _] =>
          match op with
          | .addOp =>
            match pointwise_op .addOp x size incoming esi g with
            | .error e => .error e
            | .ok r => .ok (r.little, r.esi, tracker, r.graph)
          | .mulOp =>
            match pointwise_op .mulOp x size incoming esi g with
            | .error e => .error e
            | .ok r => .ok (r.little, r.esi, tracker, r.graph)
          | .lessThan =>
            match pointwise_op .lessThan x size incoming esi g with
            | .error e => .error e
            | .ok r => .ok (r.little, r.esi, tracker, r.graph)
          | _ => .error .unsupportedBinaryOp
        | _ => .error .unsupportedArity
      match handled with
      | .error e => .error e
      | .ok (little, esi1, tracker1, g1) =>
        match mark_retrieve x little g1 with
        | .error e => .error e
        | .ok g2 => .ok (little, esi1, tracker1, g2.removeNode x)

/-- Record of a finished compilation: the tracker, the rewritten graph, and
the per-node replacement log. -/
structure ScalarizeResult where
  tracker : InputsTracker
  graph : Graph
  log : List (Nat × List Nat)
deriving DecidableEq

/-- Main loop over the reverse topological order. -/
def scalarize_go (sizes : List (Nat × Nat)) :
    List Nat → Esi → InputsTracker → List (Nat × List Nat) → Graph →
    Except ScalarError (InputsTracker × List (Nat × List Nat) × Graph)
  | [], _, tracker, log, g => .ok (tracker, log, g)
  | x :: rest, esi, tracker, log, g =>
    match scalarize_step sizes x esi tracker g with
    | .error e => .error e
    | .ok (little, esi1, tracker1, g1) =>
      scalarize_go sizes rest esi1 tracker1 (ainsert log x little) g1

/-- `Scalarize::compile`: precompute all sizes, compute the reverse
topological order, then rewrite every node in turn. -/
def scalarize_compile (g : Graph) : Except ScalarError ScalarizeResult :=
  match compute_sizes g with
  | .error e => .error e
  | .ok sizes =>
    match toposort g with
    | .error e => .error e
    | .ok order =>
      match scalarize_go sizes order.reverse [] ⟨[], []⟩ [] g with
      | .error e => .error e
      | .ok (tracker, log, g1) => .ok ⟨tracker, g1, log⟩

/-- All elements of a list equal (`itertools::all_equal`). -/
def allEqual {α : Type} [DecidableEq α] : List α → Bool
  | [] => true
  | a :: rest => rest.all (fun b => b = a)

/-- The `UniformOutShapes` validator: every node's outgoing data edges must
agree on (output slot, shape tracker). -/
def uniform_out_shapes (g : Graph) : Except ScalarError Unit :=
  if g.nodes.all
      (fun p => allEqual ((g.outData p.1).map (fun e => (e.2.output_order, e.2.shape))))
  then .ok () else .error .nonUniformOutgoingShapes

/-- `ScalarCompiler`: the validator followed by the Scalarize pass. -/
def scalar_compiler (g : Graph) : Except ScalarError ScalarizeResult :=
  match uniform_out_shapes g with
  | .error e => .error e
  | .ok _ => scalarize_compile g

/-! Concrete graphs used to evaluate the pass at specific inputs.  Trackers
of contiguous tensors map a logical index to itself and are always valid,
mirroring a freshly loaded tensor's tracker. -/

/-- Contiguous rank-1 tracker of a 2-element tensor (`R1<2>`). -/
def st2 : ShapeTracker := ⟨[.known 2], [false], .var, .lit 1⟩

/-- Contiguous rank-2 tracker of a (2,3) tensor (`R2<2,3>`). -/
def st23 : ShapeTracker := ⟨[.known 2, .known 3], [false, false], .var, .lit 1⟩

/-- Contiguous rank-1 tracker of a 3-element tensor. -/
def st3 : ShapeTracker := ⟨[.known 3], [false], .var, .lit 1⟩

/-- Contiguous rank-1 tracker of a 5-element tensor. -/
def st5 : ShapeTracker := ⟨[.known 5], [false], .var, .lit 1⟩

/-- Contiguous rank-2 tracker of a (1,3) tensor. -/
def st13 : ShapeTracker := ⟨[.known 1, .known 3], [false, false], .var, .lit 1⟩

/-- The `(a + b) + d` graph of the repository's own `test_run`: three tensor
loads (nodes 0, 1, 2) of shape `R1<2>`, `a + b` (node 3), `(a + b) + d`
(node 4, retrieval-marked with shape `R1<2>`). -/
def gAddTest : Graph :=
  { nodes := [(0, .function), (1, .function), (2, .function),
              (3, .addOp), (4, .addOp)],
    edges := [(0, ⟨0, 3, 0, 0, st2⟩), (1, ⟨1, 3, 1, 0, st2⟩),
              (2, ⟨3, 4, 0, 0, st2⟩), (3, ⟨2, 4, 1, 0, st2⟩)],
    to_retrieve := [(4, (0, st2))],
    nextNode := 5, nextEdge := 4 }

/-- A single retrieval-marked scalar input node. -/
def gInput1 : Graph :=
  { nodes := [(0, .function)], edges := [],
    to_retrieve := [(0, (0, R0))], nextNode := 1, nextEdge := 0 }

/-- A single retrieval-marked input node of declared shape (2,3). -/
def gInput6 : Graph :=
  { nodes := [(0, .function)], edges := [],
    to_retrieve := [(0, (0, st23))], nextNode := 1, nextEdge := 0 }

/-- A single retrieval-marked constant node with literal value 7. -/
def gConst7 : Graph :=
  { nodes := [(0, .constant 7)], edges := [],
    to_retrieve := [(0, (0, R0))], nextNode := 1, nextEdge := 0 }

/-- A 2-element input (node 0) feeding a retrieval-marked `Recip` (node 1). -/
def gRecip : Graph :=
  { nodes := [(0, .function), (1, .recip)],
    edges := [(0, ⟨0, 1, 0, 0, st2⟩)],
    to_retrieve := [(1, (0, st2))], nextNode := 2, nextEdge := 1 }

/-- A (2,3) input (node 0) feeding a retrieval-marked `SumReduce` over axis 0
(node 1) whose output shape is (3,). -/
def gReduce : Graph :=
  { nodes := [(0, .function), (1, .sumReduce 0)],
    edges := [(0, ⟨0, 1, 0, 0, st23⟩)],
    to_retrieve := [(1, (0, st3))], nextNode := 2, nextEdge := 1 }

/-- A node (0) that is retrieval-marked with declared shape (2,3) while its
outgoing edge carries a 5-element tracker. -/
def gRetrieveEdge : Graph :=
  { nodes := [(0, .function), (1, .recip)],
    edges := [(0, ⟨0, 1, 0, 0, st5⟩)],
    to_retrieve := [(0, (0, st23))], nextNode := 2, nextEdge := 1 }

/-- A lone `Add` node with no outgoing edge and no retrieval marking. -/
def gDangling : Graph :=
  { nodes := [(0, .addOp)], edges := [], to_retrieve := [],
    nextNode := 1, nextEdge := 0 }

/-- Well-formed input graph: edge endpoints are distinct existing nodes, all
identifiers are below the allocation counter, and node identifiers are
unique (the arena invariants of the source representation). -/
def WellFormed (g : Graph) : Prop :=
  (∀ p ∈ g.edges,
    (∃ q ∈ g.nodes, q.1 = p.2.src) ∧ (∃ q ∈ g.nodes, q.1 = p.2.tgt) ∧
    p.2.src ≠ p.2.tgt ∧ p.2.src < g.nextNode ∧ p.2.tgt < g.nextNode) ∧
  (∀ q ∈ g.nodes, q.1 < g.nextNode) ∧
  (g.nodes.map Prod.fst).Nodup

instance wellFormedDecidable (g : Graph) : Decidable (WellFormed g) := by
  unfold WellFormed
  infer_instance

/-- Every data edge of the graph carries the trivial rank-0 tracker. -/
def TrivialShapes (g : Graph) : Prop :=
  ∀ p ∈ g.edges, p.2.shape = R0

/-- Rename every node identifier of an inputs/constants tracker. -/
def renameTracker (φ : Nat → Nat) (t : InputsTracker) : InputsTracker :=
  ⟨t.new_inputs.map (fun p => (φ p.1, p.2.map φ)),
   t.constants.map (fun p => (φ p.1, p.2))⟩

/-- Rename every node identifier of a graph, keeping kinds and topology. -/
def renameGraph (φ : Nat → Nat) (g : Graph) : Graph :=
  { nodes := g.nodes.map (fun p => (φ p.1, p.2)),
    edges := g.edges.map
      (fun p => (p.1, { p.2 with src := φ p.2.src, tgt := φ p.2.tgt })),
    to_retrieve := g.to_retrieve.map (fun p => (φ p.1, p.2)),
    nextNode := g.nextNode, nextEdge := g.nextEdge }

/-- Two compilation results are structurally isomorphic when an injective
identifier renaming carries one graph (same node kinds, same edge topology)
and one tracker onto the other. -/
def OutputIso (r1 r2 : ScalarizeResult) : Prop :=
  ∃ φ : Nat → Nat, Function.Injective φ ∧
    renameGraph φ r1.graph = r2.graph ∧
    renameTracker φ r1.tracker = r2.tracker

/-- Claim C1 (evaluation at the failing input): on the repository's own
`(a+b)+d` test graph, the size precomputation succeeds before any mutation
and assigns every node the element count 2 of its physical output shape, yet
the pass aborts with a missing edge-index lookup at the second visited node,
so the little nodes are never created for nodes 0–3. -/
theorem claim_C1 :
    compute_sizes gAddTest = .ok [(0, 2), (1, 2), (2, 2), (3, 2), (4, 2)] ∧
    scalarize_compile gAddTest = .error .missingEdgeIndex :=
  ⟨rfl, rfl⟩

/-- Claim C3 (evaluation at the failing input): reducing axis 0 of a
(2,3)-shaped operand (`front_size = 1`, `back_size = 3`, `ax_len = 2`), the
handler records under the slot-1 edge of output position 1's first chain node
(edge id 6) the logical index 6 — outside the operand's 6-element logical
range — whereas the claimed decomposition gives
`(1 / back_size) * (ax_len * back_size) + 0 * back_size + 1 % back_size = 1`. -/
theorem claim_C3 :
    (reduce_op .addOp 1 3 0 (0, ⟨0, 1, 0, 0, st23⟩) [] gReduce).toOption.map
        (fun r => alookup r.esi 6) = some (some 6) ∧
    1 / 3 * (2 * 3) + 0 * 3 + 1 % 3 = 1 :=
  ⟨rfl, rfl⟩

/-- Claim C4 (evaluation at the failing input): expanding a size-2 `Recip`
whose operand edge has id 0, the handler creates the two operand edges with
fresh ids 1 and 2 (the counter ends at 3) but records nothing under them; the
only record is under the old edge id 0 and holds the final index 1, not the
per-edge index `j`. -/
theorem claim_C4 :
    (pointwise_op .recip 1 2 [(0, ⟨0, 1, 0, 0, st2⟩)] [] gRecip).toOption.map
        (fun r => (alookup r.esi 0, alookup r.esi 1, alookup r.esi 2, r.graph.nextEdge))
      = some (some 1, none, none, 3) :=
  rfl

/-- Claim C5 (counterexample): compiling a single retrieval-marked constant
node (original identity 0, literal 7) succeeds, but the finalized constants
map has no entry under the original identity 0; the entry is keyed by the
replacement node identity 1. -/
theorem claim_C5_counterexample :
    (scalarize_compile gConst7).toOption.map
        (fun r => (alookup r.tracker.constants 0, alookup r.tracker.constants 1))
      = some (none, some 7) :=
  rfl

/-- Reconnecting outgoing edges can only fail with a lookup or resolution
error, never with `degenerateReduceAxis`. -/
theorem connect_out_go_ne_deg (little : List Nat) (esi : Esi) :
    ∀ (outs : List (Nat × EdgeData)) (g : Graph),
      connect_out_go little esi outs g ≠ .error .degenerateReduceAxis := by
  intro outs
  induction outs with
  | nil => intro g; simp [connect_out_go]
  | cons p rest ih =>
    intro g
    obtain ⟨e, d⟩ := p
    simp only [connect_out_go]
    split
    · simp
    · split
      · simp
      · split
        · simp
        · exact ih _

/-- The reduction chain construction can only fail with the (always-passing)
decomposition re-check, never with `degenerateReduceAxis`. -/
theorem reduce_positions_ne_deg (op : Op) (y frontSize backSize axLen : Nat) :
    ∀ (is : List Nat) (esi : Esi) (g : Graph),
      reduce_positions op y frontSize backSize axLen is esi g ≠
        .error .degenerateReduceAxis := by
  intro is
  induction is with
  | nil => intro esi g; simp [reduce_positions]
  | cons i rest ih =>
    intro esi g
    simp only [reduce_positions]
    split
    · cases h : reduce_positions op y frontSize backSize axLen rest _ _ with
      | error e =>
        show Except.error e ≠ _
        intro heq
        cases heq
        exact ih _ _ h
      | ok r => show Except.ok _ ≠ _; simp
    · simp

/-- Claim C8: `reduce_op` fails with `DegenerateReduceAxis` exactly when the
reduced axis has length at most 1; for axis length above 1 the handler never
raises that failure (it proceeds or fails differently), so no silent
pass-through replacement is produced. -/
theorem claim_C8 (op : Op) (x size ax : Nat) (yy : Nat × EdgeData) (esi : Esi)
    (g : Graph) (dims : List Nat) (hdims : yy.2.shape.shape_usize = some dims)
    (hax : ax < dims.length) :
    reduce_op op x size ax yy esi g = .error .degenerateReduceAxis ↔
      dims.get ⟨ax, hax⟩ ≤ 1 := by
  have hget : dims.get? ax = some (dims.get ⟨ax, hax⟩) := List.get?_eq_get hax
  unfold reduce_op
  simp only [hdims, hget]
  by_cases h : dims.get ⟨ax, hax⟩ > 1
  · simp only [if_pos h]
    constructor
    · intro hres
      exfalso
      split at hres
      · split at hres
        · cases hres
        · split at hres
          · split at hres
            · split at hres
              · rename_i heq
                cases hres
                exact reduce_positions_ne_deg _ _ _ _ _ _ _ _ heq
              · split at hres
                · rename_i heq
                  cases hres
                  exact connect_out_go_ne_deg _ _ _ _ heq
                · cases hres
            · cases hres
          · cases hres
      · cases hres
    · intro hle
      exact absurd h (by omega)
  · simp only [if_neg h]
    constructor
    · intro _; omega
    · intro _; trivial

/-- Claim C8 witness: reducing axis 0 of a (1,3)-shaped operand fails with
`DegenerateReduceAxis`. -/
theorem claim_C8_witness :
    reduce_op .addOp 1 3 0 (0, ⟨0, 1, 0, 0, st13⟩) [] gReduce =
      .error .degenerateReduceAxis :=
  (claim_C8 .addOp 1 3 0 (0, ⟨0, 1, 0, 0, st13⟩) [] gReduce [1, 3] rfl
    (by decide)).mpr (by decide)

/-- If some node of the list has a failing size computation, the whole size
precomputation fails. -/
theorem compute_sizes_go_error (g : Graph) (ex : ScalarError) :
    ∀ (l : List (Nat × Op)) (x : Nat) (op : Op), (x, op) ∈ l →
      get_own_size g x = .error ex →
      ∃ e, compute_sizes_go g l = .error e := by
  intro l
  induction l with
  | nil => intro x op hmem; cases hmem
  | cons p rest ih =>
    intro x op hmem hx
    obtain ⟨y, opy⟩ := p
    simp only [compute_sizes_go]
    cases hy : get_own_size g y with
    | error e => exact ⟨e, rfl⟩
    | ok n =>
      rcases List.mem_cons.mp hmem with heq | htail
      · cases heq; rw [hx] at hy; cases hy
      · obtain ⟨e, he⟩ := ih x op htail hx
        rw [he]
        exact ⟨e, rfl⟩

/-- Claim C9: a node with no outgoing data edge and no retrieval marking
makes the pass fail during the size precomputation phase — `compute_sizes`
itself reports the error and `Scalarize::compile` propagates exactly it,
before any node or edge has been touched. -/
theorem claim_C9 (g : Graph) (x : Nat) (op : Op) (hmem : (x, op) ∈ g.nodes)
    (hout : g.outData x = []) (hret : alookup g.to_retrieve x = none) :
    ∃ e, compute_sizes g = .error e ∧ scalarize_compile g = .error e := by
  have hx : get_own_size g x = .error .noOutgoingNotRetrieval := by
    unfold get_own_size get_own_shape
    rw [hret, hout]
  obtain ⟨e, he⟩ := compute_sizes_go_error g _ g.nodes x op hmem hx
  have he2 : compute_sizes g = .error e := he
  refine ⟨e, he2, ?_⟩
  unfold scalarize_compile
  rw [he2]

/-- Claim C9 witness: a lone unmarked `Add` node with no outgoing edge makes
the precomputation (and hence the pass) fail. -/
theorem claim_C9_witness :
    ∃ e, compute_sizes gDangling = .error e ∧
      scalarize_compile gDangling = .error e :=
  claim_C9 gDangling 0 .addOp (by decide) rfl rfl

/-- Claim C10: a retrieval-marked node's precomputed size is the physical
element count of its retrieval-declared shape; the outgoing edges' trackers
are not consulted (the hypothesis grants an outgoing data edge, and the
result depends only on the declared shape). -/
theorem claim_C10 (g : Graph) (x : Nat) (o : Nat) (sh : ShapeTracker) (n : Nat)
    (hret : alookup g.to_retrieve x = some (o, sh))
    (_hedge : ∃ p ∈ g.edges, p.2.src = x)
    (hphys : sh.n_physical_elements = some n) :
    get_own_size g x = .ok n := by
  unfold get_own_size get_own_shape
  rw [hret]
  simp [hphys]

/-- Claim C10 witness: node 0 is retrieval-marked with shape (2,3) while its
outgoing edge carries a 5-element tracker; the computed size is 6, from the
declared shape. -/
theorem claim_C10_witness :
    (∃ p ∈ gRetrieveEdge.edges, p.2.src = 0) ∧
      get_own_size gRetrieveEdge 0 = .ok 6 :=
  ⟨⟨(0, ⟨0, 1, 0, 0, st5⟩), by decide, rfl⟩,
   claim_C10 gRetrieveEdge 0 0 st23 6 rfl
     ⟨(0, ⟨0, 1, 0, 0, st5⟩), by decide, rfl⟩ rfl⟩

theorem alookup_ainsert {β : Type} (l : List (Nat × β)) (k : Nat) (v : β) :
    alookup (ainsert l k v) k = some v := by
  simp [ainsert, alookup]

theorem alookup_ainsert_ne {β : Type} (l : List (Nat × β)) (k : Nat) (v : β)
    (a : Nat) (h : a ≠ k) : alookup (ainsert l k v) a = alookup l a := by
  have hka : ¬ k = a := fun heq => h heq.symm
  simp only [ainsert, alookup, if_neg hka]
  induction l with
  | nil => rfl
  | cons p rest ih =>
    obtain ⟨pk, pv⟩ := p
    by_cases hp : pk = k
    · rw [show List.filter (fun p => decide (p.1 ≠ k)) ((pk, pv) :: rest) =
          List.filter (fun p => decide (p.1 ≠ k)) rest by simp [hp]]
      rw [ih]
      have hpa : ¬ pk = a := by rw [hp]; exact hka
      simp [alookup, if_neg hpa]
    · rw [show List.filter (fun p => decide (p.1 ≠ k)) ((pk, pv) :: rest) =
          (pk, pv) :: List.filter (fun p => decide (p.1 ≠ k)) rest by simp [hp]]
      by_cases hpa : pk = a
      · simp [alookup, if_pos hpa]
      · simp only [alookup, if_neg hpa]
        exact ih

theorem alookup_some_mem {β : Type} :
    ∀ (l : List (Nat × β)) (k : Nat) (v : β), alookup l k = some v → (k, v) ∈ l := by
  intro l
  induction l with
  | nil => intro k v h; cases h
  | cons p rest ih =>
    intro k v h
    obtain ⟨pk, pv⟩ := p
    simp only [alookup] at h
    by_cases hk : pk = k
    · rw [if_pos hk] at h
      cases h
      cases hk
      exact List.mem_cons_self _ _
    · rw [if_neg hk] at h
      exact List.mem_cons_of_mem _ (ih k v h)

theorem alookup_eq_of_mem_nodup {β : Type} :
    ∀ (l : List (Nat × β)) (k : Nat) (v : β), (k, v) ∈ l →
      (l.map Prod.fst).Nodup → alookup l k = some v := by
  intro l
  induction l with
  | nil => intro k v h; cases h
  | cons p rest ih =>
    intro k v hmem hnd
    obtain ⟨pk, pv⟩ := p
    rcases List.mem_cons.mp hmem with heq | htail
    · cases heq
      simp [alookup]
    · simp only [alookup]
      by_cases hk : pk = k
      · exfalso
        subst hk
        have : pk ∈ rest.map Prod.fst := List.mem_map.mpr ⟨(pk, v), htail, rfl⟩
        exact (List.nodup_cons.mp hnd).1 this
      · rw [if_neg hk]
        exact ih k v htail (List.nodup_cons.mp hnd).2

theorem mem_ainsert {β : Type} (l : List (Nat × β)) (k : Nat) (v : β)
    (p : Nat × β) (h : p ∈ ainsert l k v) : p = (k, v) ∨ p ∈ l := by
  rcases List.mem_cons.mp h with heq | hmem
  · exact Or.inl heq
  · exact Or.inr (List.mem_of_mem_filter hmem)

theorem pickReady_mem (g : Graph) (rem : List Nat) :
    ∀ (l : List Nat) (n : Nat), pickReady g rem l = some n → n ∈ l := by
  intro l
  induction l with
  | nil => intro n h; cases h
  | cons m rest ih =>
    intro n h
    simp only [pickReady] at h
    by_cases hm : noIncomingFrom g rem m
    · rw [if_pos hm] at h
      cases h
      exact List.mem_cons_self _ _
    · rw [if_neg hm] at h
      exact List.mem_cons_of_mem _ (ih n h)

theorem toposort_go_spec (g : Graph) :
    ∀ (fuel : Nat) (rem acc l : List Nat),
      toposort_go g fuel rem acc = .ok l →
      (∀ n, n ∈ l ↔ n ∈ acc ∨ n ∈ rem) ∧
      (acc.Nodup → rem.Nodup → (∀ a ∈ acc, a ∉ rem) → l.Nodup) := by
  intro fuel
  induction fuel with
  | zero =>
    intro rem acc l h
    simp only [toposort_go] at h
    by_cases hrem : rem.isEmpty
    · rw [if_pos hrem] at h
      cases h
      have : rem = [] := List.isEmpty_iff.mp hrem
      subst this
      constructor
      · intro n; simp
      · intro ha _ _; exact List.nodup_reverse.mpr ha
    · rw [if_neg hrem] at h; cases h
  | succ fuel ih =>
    intro rem acc l h
    simp only [toposort_go] at h
    cases hp : pickReady g rem rem with
    | none =>
      rw [hp] at h
      by_cases hrem : rem.isEmpty
      · rw [if_pos hrem] at h
        cases h
        have : rem = [] := List.isEmpty_iff.mp hrem
        subst this
        constructor
        · intro n; simp
        · intro ha _ _; exact List.nodup_reverse.mpr ha
      · rw [if_neg hrem] at h; cases h
    | some n =>
      rw [hp] at h
      have hn : n ∈ rem := pickReady_mem g rem rem n hp
      obtain ⟨hmem, hnd⟩ := ih (rem.filter (fun m => m ≠ n)) (n :: acc) l h
      constructor
      · intro a
        rw [hmem a]
        constructor
        · rintro (ha | ha)
          · rcases List.mem_cons.mp ha with rfl | ha
            · exact Or.inr hn
            · exact Or.inl ha
          · exact Or.inr (List.mem_of_mem_filter ha)
        · rintro (ha | ha)
          · exact Or.inl (List.mem_cons_of_mem _ ha)
          · by_cases han : a = n
            · subst han; exact Or.inl (List.mem_cons_self _ _)
            · refine Or.inr (List.mem_filter.mpr ⟨ha, ?_⟩)
              simp [han]
      · intro hand hrnd hdisj
        refine hnd ?_ (hrnd.filter _) ?_
        · exact List.nodup_cons.mpr ⟨fun hna => hdisj n hna hn, hand⟩
        · intro a ha
          rcases List.mem_cons.mp ha with rfl | ha
          · intro hcon
            have := List.mem_filter.mp hcon
            simp at this
          · intro hcon
            exact hdisj a ha (List.mem_of_mem_filter hcon)

theorem toposort_spec (g : Graph) (l : List Nat) (h : toposort g = .ok l)
    (hnd : (g.nodes.map Prod.fst).Nodup) :
    (∀ n, n ∈ l ↔ n ∈ g.nodes.map Prod.fst) ∧ l.Nodup := by
  obtain ⟨hmem, hn⟩ := toposort_go_spec g g.nodes.length (g.nodes.map Prod.fst) [] l h
  constructor
  · intro n
    rw [hmem n]
    simp
  · exact hn List.nodup_nil hnd (by intro a ha; cases ha)

theorem make_nodes_spec (op : Op) :
    ∀ (n : Nat) (g : Graph),
      (make_nodes n op g).1 = List.range' g.nextNode n ∧
      (make_nodes n op g).2.nodes =
        g.nodes ++ (List.range' g.nextNode n).map (fun i => (i, op)) ∧
      (make_nodes n op g).2.edges = g.edges ∧
      (make_nodes n op g).2.to_retrieve = g.to_retrieve ∧
      (make_nodes n op g).2.nextNode = g.nextNode + n ∧
      (make_nodes n op g).2.nextEdge = g.nextEdge := by
  intro n
  induction n with
  | zero => intro g; simp [make_nodes]
  | succ n ih =>
    intro g
    obtain ⟨h1, h2, h3, h4, h5, h6⟩ := ih (g.addNode op).2
    simp only [make_nodes]
    rw [List.range'_succ g.nextNode n 1]
    refine ⟨?_, ?_, ?_, ?_, ?_, ?_⟩
    · rw [h1]; simp [Graph.addNode]
    · rw [h2]; simp [Graph.addNode]
    · rw [h3]; simp [Graph.addNode]
    · rw [h4]; simp [Graph.addNode]
    · rw [h5]
      show g.nextNode + 1 + n = g.nextNode + (n + 1)
      rw [Nat.add_assoc, Nat.add_comm 1 n]
    · rw [h6]; simp [Graph.addNode]

theorem mark_retrieve_spec (x : Nat) (l : List Nat) (g g2 : Graph)
    (h : mark_retrieve x l g = .ok g2) :
    g2.nodes = g.nodes ∧ g2.edges = g.edges ∧
    g2.nextNode = g.nextNode ∧ g2.nextEdge = g.nextEdge := by
  unfold mark_retrieve at h
  split at h
  · cases h; exact ⟨rfl, rfl, rfl, rfl⟩
  · split at h
    · cases h; exact ⟨rfl, rfl, rfl, rfl⟩
    · cases h

theorem connect_out_go_spec (little : List Nat) (esi : Esi) :
    ∀ (outs : List (Nat × EdgeData)) (g g' : Graph),
      connect_out_go little esi outs g = .ok g' →
      g'.nodes = g.nodes ∧ g'.to_retrieve = g.to_retrieve ∧
      g'.nextNode = g.nextNode ∧
      ∃ delta, g'.edges = g.edges ++ delta ∧
        ∀ q ∈ delta, q.2.shape = R0 ∧ q.2.src ∈ little ∧
          ∃ p ∈ outs, q.2.tgt = p.2.tgt := by
  intro outs
  induction outs with
  | nil =>
    intro g g' h
    cases h
    exact ⟨rfl, rfl, rfl, [], by simp, by intro q hq; cases hq⟩
  | cons p rest ih =>
    intro g g' h
    obtain ⟨e, d⟩ := p
    simp only [connect_out_go] at h
    split at h
    · cases h
    · split at h
      · cases h
      · split at h
        · cases h
        · rename_i ln hln
          obtain ⟨h1, h2, h3, delta, h4, h5⟩ := ih _ _ h
          refine ⟨by rw [h1]; rfl, by rw [h2]; rfl, by rw [h3]; rfl,
                  (g.nextEdge, ⟨ln, d.tgt, d.input_order, d.output_order, R0⟩) :: delta,
                  ?_, ?_⟩
          · rw [h4]; simp [Graph.addEdge]
          · intro q hq
            rcases List.mem_cons.mp hq with rfl | hq
            · exact ⟨rfl, List.get?_mem hln, ⟨(e, d), List.mem_cons_self _ _, rfl⟩⟩
            · obtain ⟨ha, hb, pp, hpp, hc⟩ := h5 q hq
              exact ⟨ha, hb, pp, List.mem_cons_of_mem _ hpp, hc⟩

theorem pointwise_inner_spec (e : Nat) (src : Nat) (b oo : Nat)
    (sh : ShapeTracker) (little : List Nat) :
    ∀ (js : List Nat) (esi : Esi) (g : Graph) (out : Esi × Graph),
      pointwise_inner e src b oo sh little js esi g = .ok out →
      out.2.nodes = g.nodes ∧ out.2.to_retrieve = g.to_retrieve ∧
      out.2.nextNode = g.nextNode ∧
      ∃ delta, out.2.edges = g.edges ++ delta ∧
        ∀ q ∈ delta, q.2.src = src ∧ q.2.shape = sh ∧ q.2.tgt ∈ little := by
  intro js
  induction js with
  | nil =>
    intro esi g out h
    cases h
    exact ⟨rfl, rfl, rfl, [], by simp, by intro q hq; cases hq⟩
  | cons j js ih =>
    intro esi g out h
    simp only [pointwise_inner] at h
    split at h
    · cases h
    · rename_i ln hln
      obtain ⟨h1, h2, h3, delta, h4, h5⟩ := ih _ _ _ h
      refine ⟨by rw [h1]; rfl, by rw [h2]; rfl, by rw [h3]; rfl,
              (g.nextEdge, ⟨src, ln, b, oo, sh⟩) :: delta, ?_, ?_⟩
      · rw [h4]; simp [Graph.addEdge]
      · intro q hq
        rcases List.mem_cons.mp hq with rfl | hq
        · exact ⟨rfl, rfl, List.get?_mem hln⟩
        · exact h5 q hq

theorem pointwise_incoming_spec (size : Nat) (little : List Nat) :
    ∀ (inc : List (Nat × EdgeData)) (esi : Esi) (g : Graph) (out : Esi × Graph),
      pointwise_incoming size little inc esi g = .ok out →
      out.2.nodes = g.nodes ∧ out.2.to_retrieve = g.to_retrieve ∧
      out.2.nextNode = g.nextNode ∧
      ∃ delta, out.2.edges = g.edges ++ delta ∧
        ∀ q ∈ delta, (∃ p ∈ inc, q.2.src = p.2.src ∧ q.2.shape = p.2.shape) ∧
          q.2.tgt ∈ little := by
  intro inc
  induction inc with
  | nil =>
    intro esi g out h
    cases h
    exact ⟨rfl, rfl, rfl, [], by simp, by intro q hq; cases hq⟩
  | cons p rest ih =>
    intro esi g out h
    obtain ⟨e, d⟩ := p
    simp only [pointwise_incoming] at h
    split at h
    · cases h
    · split at h
      · rename_i k hk hcond
        split at h
        · cases h
        · rename_i esi1 g1 hinner
          obtain ⟨ha1, ha2, ha3, delta1, ha4, ha5⟩ :=
            pointwise_inner_spec e d.src d.input_order d.output_order d.shape
              little (List.range k) esi g (esi1, g1) hinner
          obtain ⟨hb1, hb2, hb3, delta2, hb4, hb5⟩ := ih _ _ _ h
          refine ⟨by rw [hb1, ha1], by rw [hb2, ha2], by rw [hb3, ha3],
                  delta1 ++ delta2, by rw [hb4, ha4, List.append_assoc], ?_⟩
          intro q hq
          rcases List.mem_append.mp hq with hq1 | hq2
          · obtain ⟨hs, hsh, ht⟩ := ha5 q hq1
            exact ⟨⟨(e, d), List.mem_cons_self _ _, hs, hsh⟩, ht⟩
          · obtain ⟨⟨pp, hpp, hs, hsh⟩, ht⟩ := hb5 q hq2
            exact ⟨⟨pp, List.mem_cons_of_mem _ hpp, hs, hsh⟩, ht⟩
      · cases h

theorem pointwise_op_spec (op : Op) (x : Nat) (size : Nat)
    (inc : List (Nat × EdgeData)) (esi : Esi) (g : Graph) (r : StepOut)
    (h : pointwise_op op x size inc esi g = .ok r) :
    r.little = List.range' g.nextNode size ∧
    r.graph.nodes = g.nodes ++ (List.range' g.nextNode size).map (fun i => (i, op)) ∧
    r.graph.to_retrieve = g.to_retrieve ∧
    r.graph.nextNode = g.nextNode + size ∧
    ∃ delta, r.graph.edges = g.edges ++ delta ∧
      ∀ q ∈ delta,
        (q.2.shape = R0 ∧ q.2.src ∈ List.range' g.nextNode size ∧
          ∃ p ∈ g.outData x, q.2.tgt = p.2.tgt) ∨
        ((∃ p ∈ inc, q.2.src = p.2.src ∧ q.2.shape = p.2.shape) ∧
          q.2.tgt ∈ List.range' g.nextNode size) := by
  obtain ⟨hm1, hm2, hm3, hm4, hm5, hm6⟩ := make_nodes_spec op size g
  simp only [pointwise_op] at h
  split at h
  · cases h
  · rename_i g2 hconn
    split at h
    · cases h
    · rename_i esi1 g3 hinc
      cases h
      obtain ⟨hc1, hc2, hc3, delta1, hc4, hc5⟩ :=
        connect_out_go_spec (make_nodes size op g).1 esi
          ((make_nodes size op g).2.outData x) (make_nodes size op g).2 g2 hconn
      obtain ⟨hp1, hp2, hp3, delta2, hp4, hp5⟩ :=
        pointwise_incoming_spec size (make_nodes size op g).1 inc esi g2 (esi1, g3) hinc
      have houtd : (make_nodes size op g).2.outData x = g.outData x := by
        unfold Graph.outData; rw [hm3]
      refine ⟨hm1, ?_, ?_, ?_, delta1 ++ delta2, ?_, ?_⟩
      · rw [hp1, hc1, hm2]
      · rw [hp2, hc2, hm4]
      · rw [hp3, hc3, hm5]
      · rw [hp4, hc4, hm3, List.append_assoc]
      · intro q hq
        rcases List.mem_append.mp hq with hq1 | hq2
        · obtain ⟨ha, hb, pp, hpp, hcc⟩ := hc5 q hq1
          rw [houtd] at hpp
          rw [hm1] at hb
          exact Or.inl ⟨ha, hb, pp, hpp, hcc⟩
        · obtain ⟨ha, hb⟩ := hp5 q hq2
          rw [hm1] at hb
          exact Or.inr ⟨ha, hb⟩

theorem reduce_chain_cons (op : Op) (y : Nat) (k : Nat) (ks : List Nat)
    (acc : Nat) (esi : Esi) (g : Graph) :
    reduce_chain op y (k :: ks) acc esi g =
      reduce_chain op y ks g.nextNode (ainsert esi (g.nextEdge + 1) k)
        { g with nodes := g.nodes ++ [(g.nextNode, op)],
                 edges := g.edges ++
                   [(g.nextEdge, ⟨acc, g.nextNode, 0, 0, R0⟩),
                    (g.nextEdge + 1, ⟨y, g.nextNode, 1, 0, R0⟩)],
                 nextNode := g.nextNode + 1, nextEdge := g.nextEdge + 2 } := by
  simp only [reduce_chain, Graph.addNode, Graph.addEdge]
  congr 1
  simp

theorem reduce_chain_spec (op : Op) (y : Nat) :
    ∀ (ks : List Nat) (acc : Nat) (esi : Esi) (g : Graph),
      y < g.nextNode → acc < g.nextNode →
      (reduce_chain op y ks acc esi g).2.2.nodes =
        g.nodes ++ (List.range' g.nextNode ks.length).map (fun i => (i, op)) ∧
      (reduce_chain op y ks acc esi g).2.2.to_retrieve = g.to_retrieve ∧
      (reduce_chain op y ks acc esi g).2.2.nextNode = g.nextNode + ks.length ∧
      (reduce_chain op y ks acc esi g).1 < g.nextNode + ks.length ∧
      (ks ≠ [] → g.nextNode ≤ (reduce_chain op y ks acc esi g).1) ∧
      ∃ delta, (reduce_chain op y ks acc esi g).2.2.edges = g.edges ++ delta ∧
        ∀ q ∈ delta, q.2.shape = R0 ∧ q.2.src < q.2.tgt ∧
          (q.2.src = y ∨ q.2.src = acc ∨ g.nextNode ≤ q.2.src) ∧
          q.2.tgt < g.nextNode + ks.length := by
  intro ks
  induction ks with
  | nil =>
    intro acc esi g hy hacc
    refine ⟨by simp [reduce_chain], rfl, by simp [reduce_chain], ?_, ?_, [],
            by simp [reduce_chain], by intro q hq; cases hq⟩
    · simpa [reduce_chain] using hacc
    · intro hne; exact absurd rfl hne
  | cons k ks ih =>
    intro acc esi g hy hacc
    rw [reduce_chain_cons]
    simp only [List.length_cons]
    set g3 : Graph :=
      { g with nodes := g.nodes ++ [(g.nextNode, op)],
               edges := g.edges ++
                 [(g.nextEdge, ⟨acc, g.nextNode, 0, 0, R0⟩),
                  (g.nextEdge + 1, ⟨y, g.nextNode, 1, 0, R0⟩)],
               nextNode := g.nextNode + 1, nextEdge := g.nextEdge + 2 } with hg3
    have hy3 : y < g3.nextNode := by simp [hg3]; omega
    have hacc3 : g.nextNode < g3.nextNode := by simp [hg3]
    obtain ⟨i1, i2, i3, i4, i5, delta, i6, i7⟩ :=
      ih g.nextNode (ainsert esi (g.nextEdge + 1) k) g3 hy3 hacc3
    have hnodes3 : g3.nodes = g.nodes ++ [(g.nextNode, op)] := rfl
    have hnext3 : g3.nextNode = g.nextNode + 1 := rfl
    refine ⟨?_, by rw [i2], ?_, ?_, ?_, ?_⟩
    · rw [i1, hnodes3, hnext3, List.range'_succ g.nextNode ks.length 1]
      simp
    · rw [i3, hnext3]
      show g.nextNode + 1 + ks.length = g.nextNode + (ks.length + 1)
      rw [Nat.add_assoc, Nat.add_comm 1 ks.length]
    · rw [hnext3] at i4
      show _ < g.nextNode + (ks.length + 1)
      omega
    · intro _
      cases ks with
      | nil =>
        show g.nextNode ≤ (reduce_chain op y [] g.nextNode _ g3).1
        simp [reduce_chain]
      | cons a l =>
        have := i5 (by simp)
        rw [hnext3] at this
        omega
    · refine ⟨(g.nextEdge, ⟨acc, g.nextNode, 0, 0, R0⟩) ::
              (g.nextEdge + 1, ⟨y, g.nextNode, 1, 0, R0⟩) :: delta, ?_, ?_⟩
      · rw [i6]
        show _ = g.edges ++ _
        simp [hg3]
      · intro q hq
        rw [hnext3] at i7
        rcases List.mem_cons.mp hq with rfl | hq
        · refine ⟨rfl, hacc, Or.inr (Or.inl rfl), ?_⟩
          show g.nextNode < g.nextNode + (ks.length + 1)
          omega
        · rcases List.mem_cons.mp hq with rfl | hq
          · refine ⟨rfl, hy, Or.inl rfl, ?_⟩
            show g.nextNode < g.nextNode + (ks.length + 1)
            omega
          · obtain ⟨ja, jb, jc, jd⟩ := i7 q hq
            refine ⟨ja, jb, ?_, by omega⟩
            rcases jc with jc | jc | jc
            · exact Or.inl jc
            · exact Or.inr (Or.inr (by omega))
            · exact Or.inr (Or.inr (by omega))

theorem reduce_positions_spec (op : Op) (y frontSize backSize axLen : Nat)
    (hax : 0 < axLen) :
    ∀ (is : List Nat) (esi : Esi) (g : Graph) (out : List Nat × Esi × Graph),
      y < g.nextNode →
      reduce_positions op y frontSize backSize axLen is esi g = .ok out →
      ∃ m, out.2.2.nextNode = g.nextNode + m ∧
        out.2.2.nodes = g.nodes ++ (List.range' g.nextNode m).map (fun i => (i, op)) ∧
        out.2.2.to_retrieve = g.to_retrieve ∧
        out.1.length = is.length ∧
        (∀ n ∈ out.1, g.nextNode ≤ n ∧ n < g.nextNode + m) ∧
        ∃ delta, out.2.2.edges = g.edges ++ delta ∧
          ∀ q ∈ delta, q.2.shape = R0 ∧ q.2.src < q.2.tgt ∧
            (q.2.src = y ∨ g.nextNode ≤ q.2.src) ∧ q.2.tgt < g.nextNode + m := by
  intro is
  induction is with
  | nil =>
    intro esi g out _hy h
    simp only [reduce_positions] at h
    cases h
    refine ⟨0, by simp, by simp, rfl, rfl, ?_, [], by simp, ?_⟩
    · intro n hn; cases hn
    · intro q hq; cases hq
  | cons i is ih =>
    intro esi g out hy h
    simp only [reduce_positions] at h
    split at h
    · split at h
      · cases h
      · rename_i lns esi2 g2 hrec
        cases h
        set ks : List Nat := (List.range axLen).map
            (fun k => i / frontSize * backSize * axLen + k * backSize + i % frontSize) with hks
        have hkslen : ks.length = axLen := by rw [hks]; simp
        have hksne : ks ≠ [] := by
          intro hcon
          have := congrArg List.length hcon
          rw [hkslen] at this
          simp at this
          omega
        obtain ⟨c1, c2, c3, c4, c5, delta1, c6, c7⟩ :=
          reduce_chain_spec op y ks y esi g hy hy
        rw [hkslen] at c1 c3 c4 c7
        have hy1 : y < (reduce_chain op y ks y esi g).2.2.nextNode := by
          rw [c3]; omega
        obtain ⟨m, r1, r2, r3, r4, r5, delta2, r6, r7⟩ := ih _ _ _ hy1 hrec
        rw [c3] at r1 r2 r5 r7
        refine ⟨axLen + m, ?_, ?_, ?_, ?_, ?_, ?_⟩
        · rw [r1]; omega
        · rw [r2, c1]
          rw [List.append_assoc, ← List.map_append]
          have hr : List.range' g.nextNode axLen ++ List.range' (g.nextNode + axLen) m =
              List.range' g.nextNode (axLen + m) := by
            have := List.range'_append g.nextNode axLen m 1
            simp only [one_mul] at this
            rw [Nat.add_comm m axLen] at this
            exact this
          rw [hr]
        · rw [r3, c2]
        · show _ + 1 = _ + 1
          rw [r4]
        · intro n hn
          rcases List.mem_cons.mp hn with rfl | hn
          · exact ⟨c5 hksne, by omega⟩
          · obtain ⟨ha, hb⟩ := r5 n hn
            exact ⟨by omega, by omega⟩
        · refine ⟨delta1 ++ delta2, ?_, ?_⟩
          · rw [r6, c6, List.append_assoc]
          · intro q hq
            rcases List.mem_append.mp hq with hq | hq
            · obtain ⟨ja, jb, jc, jd⟩ := c7 q hq
              refine ⟨ja, jb, ?_, by omega⟩
              rcases jc with jc | jc | jc
              · exact Or.inl jc
              · exact Or.inl jc
              · exact Or.inr (by omega)
            · obtain ⟨ja, jb, jc, jd⟩ := r7 q hq
              refine ⟨ja, jb, ?_, by omega⟩
              rcases jc with jc | jc
              · exact Or.inl jc
              · exact Or.inr (by omega)
    · cases h

theorem mem_outData (g : Graph) (x : Nat) (p : Nat × EdgeData)
    (h : p ∈ g.outData x) : p ∈ g.edges ∧ p.2.src = x := by
  unfold Graph.outData at h
  rw [List.mem_reverse] at h
  have := List.mem_filter.mp h
  exact ⟨this.1, by simpa using this.2⟩

theorem mem_inData (g : Graph) (x : Nat) (p : Nat × EdgeData)
    (h : p ∈ g.inData x) : p ∈ g.edges ∧ p.2.tgt = x := by
  unfold Graph.inData at h
  rw [List.mem_reverse] at h
  have := List.mem_filter.mp h
  exact ⟨this.1, by simpa using this.2⟩

theorem mem_insertByInput (p : Nat × EdgeData) :
    ∀ (l : List (Nat × EdgeData)) (q : Nat × EdgeData),
      q ∈ insertByInput p l ↔ q = p ∨ q ∈ l := by
  intro l
  induction l with
  | nil =>
    intro q
    simp [insertByInput]
  | cons a rest ih =>
    intro q
    simp only [insertByInput]
    split
    · simp [or_comm, or_assoc, or_left_comm]
    ·
      constructor
      · intro hq
        rcases List.mem_cons.mp hq with rfl | hq
        · exact Or.inr (List.mem_cons_self _ _)
        · rcases (ih q).mp hq with hq | hq
          · exact Or.inl hq
          · exact Or.inr (List.mem_cons_of_mem _ hq)
      · intro hq
        rcases hq with rfl | hq
        · exact List.mem_cons_of_mem _ ((ih q).mpr (Or.inl rfl))
        · rcases List.mem_cons.mp hq with rfl | hq
          · exact List.mem_cons_self _ _
          · exact List.mem_cons_of_mem _ ((ih q).mpr (Or.inr hq))

theorem mem_sortByInput :
    ∀ (l : List (Nat × EdgeData)) (q : Nat × EdgeData),
      q ∈ sortByInput l ↔ q ∈ l := by
  intro l
  induction l with
  | nil => intro q; simp [sortByInput]
  | cons a rest ih =>
    intro q
    simp only [sortByInput]
    rw [mem_insertByInput a (sortByInput rest) q]
    rw [ih q]
    simp

theorem outData_of_append (g g1 : Graph) (delta : List (Nat × EdgeData)) (x : Nat)
    (hE : g1.edges = g.edges ++ delta)
    (hno : ∀ q ∈ delta, q.2.src ≠ x) : g1.outData x = g.outData x := by
  unfold Graph.outData
  rw [hE, List.filter_append]
  have hnil : delta.filter (fun p => decide (p.2.src = x)) = [] := by
    rw [List.filter_eq_nil_iff]
    intro q hq
    simp [hno q hq]
  rw [hnil, List.append_nil]

theorem reduce_op_spec (op : Op) (x : Nat) (size ax : Nat)
    (yy : Nat × EdgeData) (esi : Esi) (g : Graph) (r : StepOut)
    (hy : yy.2.src < g.nextNode) (hyx : yy.2.src ≠ x) (hx : x < g.nextNode)
    (h : reduce_op op x size ax yy esi g = .ok r) :
    ∃ m, r.graph.nextNode = g.nextNode + m ∧
      r.graph.nodes = g.nodes ++ (List.range' g.nextNode m).map (fun i => (i, op)) ∧
      r.graph.to_retrieve = g.to_retrieve ∧
      r.little.length = size ∧
      (∀ n ∈ r.little, g.nextNode ≤ n ∧ n < g.nextNode + m) ∧
      ∃ delta, r.graph.edges = g.edges ++ delta ∧
        ∀ q ∈ delta,
          (q.2.shape = R0 ∧ q.2.src ≠ q.2.tgt ∧ q.2.src < g.nextNode + m ∧
            q.2.tgt < g.nextNode + m) ∨
          (q.2.shape = R0 ∧ q.2.src ∈ r.little ∧
            ∃ p ∈ g.outData x, q.2.tgt = p.2.tgt) := by
  simp only [reduce_op] at h
  split at h
  · cases h
  · rename_i dims hdims
    split at h
    · cases h
    · rename_i axLen hget
      split at h
      · rename_i haxLen
        split at h
        · split at h
          · cases h
          · rename_i nel hnel
            split at h
            · split at h
              · split at h
                · cases h
                · rename_i little esi1 g1 hpos
                  split at h
                  · cases h
                  · rename_i g2 hconn
                    cases h
                    have hax0 : 0 < axLen := by omega
                    obtain ⟨m, r1, r2, r3, r4, r5, delta1, r6, r7⟩ :=
                      reduce_positions_spec op yy.2.src _ _ axLen hax0
                        (List.range size) esi g (little, esi1, g1) hy hpos
                    have hno1 : ∀ q ∈ delta1, q.2.src ≠ x := by
                      intro q hq
                      obtain ⟨_, _, jc, _⟩ := r7 q hq
                      rcases jc with jc | jc
                      · rw [jc]; exact hyx
                      · omega
                    have houtd : g1.outData x = g.outData x :=
                      outData_of_append g g1 delta1 x r6 hno1
                    obtain ⟨c1, c2, c3, delta2, c4, c5⟩ :=
                      connect_out_go_spec little esi1 (g1.outData x) g1 g2 hconn
                    refine ⟨m, ?_, ?_, ?_, ?_, ?_, delta1 ++ delta2, ?_, ?_⟩
                    · rw [show (StepOut.mk little esi1 g2).graph = g2 from rfl, c3, r1]
                    · rw [show (StepOut.mk little esi1 g2).graph = g2 from rfl, c1, r2]
                    · rw [show (StepOut.mk little esi1 g2).graph = g2 from rfl, c2, r3]
                    · show little.length = size
                      rw [show little = (little, esi1, g1).1 from rfl] at r4 ⊢
                      rw [r4]
                      simp
                    · intro n hn
                      exact r5 n hn
                    · rw [show (StepOut.mk little esi1 g2).graph = g2 from rfl, c4, r6,
                          List.append_assoc]
                    · intro q hq
                      rcases List.mem_append.mp hq with hq | hq
                      · obtain ⟨ja, jb, jc, jd⟩ := r7 q hq
                        exact Or.inl ⟨ja, by omega, by omega, by omega⟩
                      · obtain ⟨ja, jb, pp, hpp, jc⟩ := c5 q hq
                        rw [houtd] at hpp
                        exact Or.inr ⟨ja, jb, pp, hpp, jc⟩
              · cases h
            · cases h
        · cases h
      · cases h

/-- The state invariant of the rewrite loop: `g0` is the input graph, `sizes`
the precomputed size map, `pi` the still-unprocessed suffix of the reverse
topological order.  Processed original nodes are deleted; every non-trivial
edge originates from a still-unprocessed original node; the tracker and the
replacement log already cover every processed input/constant node. -/
structure LoopInv (g0 : Graph) (sizes : List (Nat × Nat)) (pi : List Nat)
    (tracker : InputsTracker) (log : List (Nat × List Nat)) (g : Graph) : Prop where
  piNodup : pi.Nodup
  origAlive : ∀ x op, (x, op) ∈ g0.nodes → x ∈ pi → (x, op) ∈ g.nodes
  nodesNodup : (g.nodes.map Prod.fst).Nodup
  nodeBound : ∀ q ∈ g.nodes, q.1 < g.nextNode
  piBound : ∀ x ∈ pi, x < g.nextNode
  edgeBound : ∀ p ∈ g.edges, p.2.src < g.nextNode ∧ p.2.tgt < g.nextNode
  noSelfLoop : ∀ p ∈ g.edges, p.2.src ≠ p.2.tgt
  shapeInv : ∀ p ∈ g.edges, p.2.shape ≠ R0 → p.2.src ∈ pi
  trInputs : ∀ x, (x, Op.function) ∈ g0.nodes → x ∉ pi →
    ∃ l, alookup tracker.new_inputs x = some l ∧ alookup log x = some l ∧
      alookup sizes x = some l.length
  trConsts : ∀ x v, (x, Op.constant v) ∈ g0.nodes → x ∉ pi →
    ∃ y, alookup log x = some [y] ∧ alookup tracker.constants y = some v
  constKeys : ∀ p ∈ tracker.constants, p.1 < g.nextNode

/-- Reassemble the invariant after one handler ran: the handler extended the
graph by fresh nodes `range' g.nextNode m` and by edges `delta` with the
listed properties, and the processed node `x` is then deleted. -/
theorem rebuild_inv (g0 : Graph) (sizes : List (Nat × Nat)) (x : Nat)
    (rest : List Nat) (tracker tracker' : InputsTracker)
    (log : List (Nat × List Nat)) (g gH : Graph) (little : List Nat)
    (opN : Op) (m : Nat) (delta : List (Nat × EdgeData))
    (inv : LoopInv g0 sizes (x :: rest) tracker log g)
    (hnodes : gH.nodes = g.nodes ++ (List.range' g.nextNode m).map (fun i => (i, opN)))
    (hnext : gH.nextNode = g.nextNode + m)
    (hedges : gH.edges = g.edges ++ delta)
    (hdelta : ∀ q ∈ delta,
      q.2.src < gH.nextNode ∧ q.2.tgt < gH.nextNode ∧ q.2.src ≠ q.2.tgt ∧
      (q.2.shape ≠ R0 → q.2.src ∈ rest))
    (htrIn : ∀ x0, (x0, Op.function) ∈ g0.nodes → x0 ∉ rest →
      ∃ l, alookup tracker'.new_inputs x0 = some l ∧
        alookup (ainsert log x little) x0 = some l ∧
        alookup sizes x0 = some l.length)
    (htrC : ∀ x0 v, (x0, Op.constant v) ∈ g0.nodes → x0 ∉ rest →
      ∃ y, alookup (ainsert log x little) x0 = some [y] ∧
        alookup tracker'.constants y = some v)
    (hck : ∀ p ∈ tracker'.constants, p.1 < gH.nextNode) :
    LoopInv g0 sizes rest tracker' (ainsert log x little) (gH.removeNode x) := by
  have hxrest : x ∉ rest := (List.nodup_cons.mp inv.piNodup).1
  refine ⟨(List.nodup_cons.mp inv.piNodup).2, ?_, ?_, ?_, ?_, ?_, ?_, ?_, ?_, ?_, ?_⟩
  · -- origAlive
    intro x0 op0 hmem hpi
    have hx0 : x0 ≠ x := fun heq => hxrest (heq ▸ hpi)
    have : (x0, op0) ∈ g.nodes :=
      inv.origAlive x0 op0 hmem (List.mem_cons_of_mem _ hpi)
    refine List.mem_filter.mpr ⟨?_, by simpa using hx0⟩
    rw [hnodes]
    exact List.mem_append_left _ this
  · -- nodesNodup
    show ((gH.nodes.filter (fun p => decide (p.1 ≠ x))).map Prod.fst).Nodup
    have hnd : (gH.nodes.map Prod.fst).Nodup := by
      rw [hnodes, List.map_append, List.map_map]
      refine List.Nodup.append inv.nodesNodup ?_ ?_
      · rw [show (Prod.fst ∘ fun i => ((i : Nat), opN)) = id from rfl, List.map_id]
        exact List.nodup_range' g.nextNode m
      · intro a ha hb
        rw [show (Prod.fst ∘ fun i => ((i : Nat), opN)) = id from rfl, List.map_id] at hb
        obtain ⟨q, hq, rfl⟩ := List.mem_map.mp ha
        have h1 := inv.nodeBound q hq
        have h2 := (List.mem_range'_1.mp hb).1
        omega
    have hsub : List.Sublist
        ((gH.nodes.filter (fun p => decide (p.1 ≠ x))).map Prod.fst)
        (gH.nodes.map Prod.fst) := (List.filter_sublist _).map Prod.fst
    exact List.Nodup.sublist hsub hnd
  · -- nodeBound
    intro q hq
    have hq2 : q ∈ gH.nodes := List.mem_of_mem_filter hq
    rw [hnodes] at hq2
    show q.1 < gH.nextNode
    rw [hnext]
    rcases List.mem_append.mp hq2 with hq2 | hq2
    · have := inv.nodeBound q hq2; omega
    · obtain ⟨i, hi, rfl⟩ := List.mem_map.mp hq2
      have := (List.mem_range'_1.mp hi).2
      simpa using this
  · -- piBound
    intro a ha
    have := inv.piBound a (List.mem_cons_of_mem _ ha)
    show a < gH.nextNode
    rw [hnext]
    omega
  · -- edgeBound
    intro p hp
    have hp2 : p ∈ gH.edges := List.mem_of_mem_filter hp
    rw [hedges] at hp2
    show p.2.src < gH.nextNode ∧ p.2.tgt < gH.nextNode
    rcases List.mem_append.mp hp2 with hp2 | hp2
    · have := inv.edgeBound p hp2
      rw [hnext]
      omega
    · obtain ⟨h1, h2, _, _⟩ := hdelta p hp2
      exact ⟨h1, h2⟩
  · -- noSelfLoop
    intro p hp
    have hp2 : p ∈ gH.edges := List.mem_of_mem_filter hp
    rw [hedges] at hp2
    rcases List.mem_append.mp hp2 with hp2 | hp2
    · exact inv.noSelfLoop p hp2
    · exact (hdelta p hp2).2.2.1
  · -- shapeInv
    intro p hp hsh
    have hp2 : p ∈ gH.edges := List.mem_of_mem_filter hp
    have hpx : p.2.src ≠ x := by
      have := List.mem_filter.mp hp
      have h2 := this.2
      simp only [decide_eq_true_eq] at h2
      exact h2.1
    rw [hedges] at hp2
    rcases List.mem_append.mp hp2 with hp2 | hp2
    · have := inv.shapeInv p hp2 hsh
      rcases List.mem_cons.mp this with heq | hmem
      · exact absurd heq hpx
      · exact hmem
    · exact (hdelta p hp2).2.2.2 hsh
  · exact htrIn
  · exact htrC
  · intro p hp
    exact hck p hp

theorem tracker_unchanged (g0 : Graph) (sizes : List (Nat × Nat)) (x : Nat)
    (rest : List Nat) (tracker : InputsTracker) (log : List (Nat × List Nat))
    (g : Graph) (little : List Nat) (opx : Op)
    (inv : LoopInv g0 sizes (x :: rest) tracker log g)
    (hop : alookup g.nodes x = some opx)
    (hF : opx ≠ Op.function) (hC : ∀ v, opx ≠ Op.constant v) :
    (∀ x0, (x0, Op.function) ∈ g0.nodes → x0 ∉ rest →
      ∃ l, alookup tracker.new_inputs x0 = some l ∧
        alookup (ainsert log x little) x0 = some l ∧
        alookup sizes x0 = some l.length) ∧
    (∀ x0 v, (x0, Op.constant v) ∈ g0.nodes → x0 ∉ rest →
      ∃ y, alookup (ainsert log x little) x0 = some [y] ∧
        alookup tracker.constants y = some v) := by
  constructor
  · intro x0 hx0 hnr
    by_cases heq : x0 = x
    · subst heq
      exfalso
      have hmem := inv.origAlive x0 .function hx0 (List.mem_cons_self _ _)
      have hlk := alookup_eq_of_mem_nodup g.nodes x0 .function hmem inv.nodesNodup
      rw [hop] at hlk
      injection hlk with hlk
      exact hF hlk
    · have hnx : x0 ∉ x :: rest := by
        intro hmem
        rcases List.mem_cons.mp hmem with h | h
        · exact heq h
        · exact hnr h
      obtain ⟨l, h1, h2, h3⟩ := inv.trInputs x0 hx0 hnx
      exact ⟨l, h1, by rw [alookup_ainsert_ne _ _ _ _ heq]; exact h2, h3⟩
  · intro x0 v hx0 hnr
    by_cases heq : x0 = x
    · subst heq
      exfalso
      have hmem := inv.origAlive x0 (.constant v) hx0 (List.mem_cons_self _ _)
      have hlk := alookup_eq_of_mem_nodup g.nodes x0 (.constant v) hmem inv.nodesNodup
      rw [hop] at hlk
      injection hlk with hlk
      exact hC v hlk
    · have hnx : x0 ∉ x :: rest := by
        intro hmem
        rcases List.mem_cons.mp hmem with h | h
        · exact heq h
        · exact hnr h
      obtain ⟨y, h1, h2⟩ := inv.trConsts x0 v hx0 hnx
      exact ⟨y, by rw [alookup_ainsert_ne _ _ _ _ heq]; exact h1, h2⟩

theorem source_make_connect_spec (op : Op) (x size : Nat) (esi : Esi)
    (g g2 : Graph)
    (h : connect_out_edges x (make_nodes size op g).1 esi (make_nodes size op g).2 = .ok g2) :
    (make_nodes size op g).1 = List.range' g.nextNode size ∧
    g2.nodes = g.nodes ++ (List.range' g.nextNode size).map (fun i => (i, op)) ∧
    g2.to_retrieve = g.to_retrieve ∧
    g2.nextNode = g.nextNode + size ∧
    ∃ delta, g2.edges = g.edges ++ delta ∧
      ∀ q ∈ delta, q.2.shape = R0 ∧ q.2.src ∈ List.range' g.nextNode size ∧
        ∃ p ∈ g.outData x, q.2.tgt = p.2.tgt := by
  obtain ⟨hm1, hm2, hm3, hm4, hm5, hm6⟩ := make_nodes_spec op size g
  obtain ⟨hc1, hc2, hc3, delta, hc4, hc5⟩ :=
    connect_out_go_spec (make_nodes size op g).1 esi
      ((make_nodes size op g).2.outData x) (make_nodes size op g).2 g2 h
  have houtd : (make_nodes size op g).2.outData x = g.outData x := by
    unfold Graph.outData
    rw [hm3]
  refine ⟨hm1, ?_, ?_, ?_, delta, ?_, ?_⟩
  · rw [hc1, hm2]
  · rw [hc2, hm4]
  · rw [hc3, hm5]
  · rw [hc4, hm3]
  · intro q hq
    obtain ⟨ja, jb, pp, hpp, jc⟩ := hc5 q hq
    rw [houtd] at hpp
    rw [hm1] at jb
    exact ⟨ja, jb, pp, hpp, jc⟩

theorem step_pointwise_inv (g0 : Graph) (sizes : List (Nat × Nat)) (x : Nat)
    (rest : List Nat) (esi : Esi) (tracker : InputsTracker)
    (log : List (Nat × List Nat)) (g : Graph) (opP opx : Op) (size : Nat)
    (r : StepOut) (g2 : Graph)
    (inv : LoopInv g0 sizes (x :: rest) tracker log g)
    (hop : alookup g.nodes x = some opx)
    (hF : opx ≠ Op.function) (hC : ∀ v, opx ≠ Op.constant v)
    (hpw : pointwise_op opP x size (sortByInput (g.inData x)) esi g = .ok r)
    (hmr : mark_retrieve x r.little r.graph = .ok g2) :
    LoopInv g0 sizes rest tracker (ainsert log x r.little) (g2.removeNode x) := by
  obtain ⟨hp1, hp2, hp3, hp4, delta, hp5, hp6⟩ :=
    pointwise_op_spec opP x size (sortByInput (g.inData x)) esi g r hpw
  obtain ⟨hm1, hm2, hm3, hm4⟩ := mark_retrieve_spec x r.little r.graph g2 hmr
  obtain ⟨htrIn, htrC⟩ :=
    tracker_unchanged g0 sizes x rest tracker log g r.little opx inv hop hF hC
  have hbound : g2.nextNode = g.nextNode + size := by rw [hm3, hp4]
  refine rebuild_inv g0 sizes x rest tracker tracker log g g2 r.little opP size
    delta inv ?_ ?_ ?_ ?_ htrIn htrC ?_
  · rw [hm1, hp2]
  · exact hbound
  · rw [hm2, hp5]
  · intro q hq
    rcases hp6 q hq with ⟨ja, jb, pp, hpp, jc⟩ | ⟨⟨pp, hpp, js, jsh⟩, jt⟩
    · obtain ⟨hpe, hpsrc⟩ := mem_outData g x pp hpp
      have htgt : q.2.tgt < g.nextNode := by
        rw [jc]; exact (inv.edgeBound pp hpe).2
      have hsrc := List.mem_range'_1.mp jb
      refine ⟨by rw [hbound]; omega, by rw [hbound]; omega, by omega, ?_⟩
      intro hne
      exact absurd ja hne
    · rw [mem_sortByInput] at hpp
      obtain ⟨hpe, hptgt⟩ := mem_inData g x pp hpp
      have hsrcb : pp.2.src < g.nextNode := (inv.edgeBound pp hpe).1
      have htgtr := List.mem_range'_1.mp jt
      refine ⟨by rw [hbound, js]; omega, by rw [hbound]; omega,
              by rw [js]; omega, ?_⟩
      intro hne
      rw [jsh] at hne
      have hsp := inv.shapeInv pp hpe hne
      have hnx : pp.2.src ≠ x := by
        have hsl := inv.noSelfLoop pp hpe
        rw [hptgt] at hsl
        exact hsl
      rw [js]
      rcases List.mem_cons.mp hsp with heq | hm
      · exact absurd heq hnx
      · exact hm
  · intro p hp
    have := inv.constKeys p hp
    rw [hbound]
    omega

theorem step_reduce_inv (g0 : Graph) (sizes : List (Nat × Nat)) (x : Nat)
    (rest : List Nat) (esi : Esi) (tracker : InputsTracker)
    (log : List (Nat × List Nat)) (g : Graph) (opR opx : Op) (size ax : Nat)
    (yy : Nat × EdgeData) (r : StepOut) (g2 : Graph)
    (inv : LoopInv g0 sizes (x :: rest) tracker log g)
    (hop : alookup g.nodes x = some opx)
    (hF : opx ≠ Op.function) (hC : ∀ v, opx ≠ Op.constant v)
    (hyy : yy ∈ g.inData x)
    (hrd : reduce_op opR x size ax yy esi g = .ok r)
    (hmr : mark_retrieve x r.little r.graph = .ok g2) :
    LoopInv g0 sizes rest tracker (ainsert log x r.little) (g2.removeNode x) := by
  obtain ⟨hye, hytgt⟩ := mem_inData g x yy hyy
  have hy : yy.2.src < g.nextNode := (inv.edgeBound yy hye).1
  have hyx : yy.2.src ≠ x := by
    have hsl := inv.noSelfLoop yy hye
    rw [hytgt] at hsl
    exact hsl
  have hxlt : x < g.nextNode := inv.piBound x (List.mem_cons_self _ _)
  obtain ⟨m, r1, r2, r3, r4, r5, delta, r6, r7⟩ :=
    reduce_op_spec opR x size ax yy esi g r hy hyx hxlt hrd
  obtain ⟨hm1, hm2, hm3, hm4⟩ := mark_retrieve_spec x r.little r.graph g2 hmr
  obtain ⟨htrIn, htrC⟩ :=
    tracker_unchanged g0 sizes x rest tracker log g r.little opx inv hop hF hC
  have hbound : g2.nextNode = g.nextNode + m := by rw [hm3, r1]
  refine rebuild_inv g0 sizes x rest tracker tracker log g g2 r.little opR m
    delta inv ?_ ?_ ?_ ?_ htrIn htrC ?_
  · rw [hm1, r2]
  · exact hbound
  · rw [hm2, r6]
  · intro q hq
    rcases r7 q hq with ⟨ja, jb, jc, jd⟩ | ⟨ja, jb, pp, hpp, jc⟩
    · refine ⟨by rw [hbound]; omega, by rw [hbound]; omega, jb, ?_⟩
      intro hne
      exact absurd ja hne
    · obtain ⟨hpe, hpsrc⟩ := mem_outData g x pp hpp
      have htgt : q.2.tgt < g.nextNode := by
        rw [jc]; exact (inv.edgeBound pp hpe).2
      obtain ⟨hs1, hs2⟩ := r5 q.2.src jb
      refine ⟨by rw [hbound]; omega, by rw [hbound]; omega, by omega, ?_⟩
      intro hne
      exact absurd ja hne
  · intro p hp
    have := inv.constKeys p hp
    rw [hbound]
    omega

theorem step_function_inv (g0 : Graph) (sizes : List (Nat × Nat)) (x : Nat)
    (rest : List Nat) (esi : Esi) (tracker : InputsTracker)
    (log : List (Nat × List Nat)) (g : Graph) (size : Nat) (g2 g3 : Graph)
    (inv : LoopInv g0 sizes (x :: rest) tracker log g)
    (hop : alookup g.nodes x = some Op.function)
    (hsize : alookup sizes x = some size)
    (hconn : connect_out_edges x (make_nodes size .inputOp g).1 esi
      (make_nodes size .inputOp g).2 = .ok g2)
    (hmr : mark_retrieve x (make_nodes size .inputOp g).1 g2 = .ok g3) :
    LoopInv g0 sizes rest
      { tracker with
        new_inputs := ainsert tracker.new_inputs x (make_nodes size .inputOp g).1 }
      (ainsert log x (make_nodes size .inputOp g).1) (g3.removeNode x) := by
  obtain ⟨hs1, hs2, hs3, hs4, delta, hs5, hs6⟩ :=
    source_make_connect_spec .inputOp x size esi g g2 hconn
  obtain ⟨hm1, hm2, hm3, hm4⟩ :=
    mark_retrieve_spec x (make_nodes size .inputOp g).1 g2 g3 hmr
  have hbound : g3.nextNode = g.nextNode + size := by rw [hm3, hs4]
  have hlen : (make_nodes size .inputOp g).1.length = size := by
    rw [hs1]; simp
  refine rebuild_inv g0 sizes x rest tracker _ log g g3
    (make_nodes size .inputOp g).1 .inputOp size delta inv ?_ ?_ ?_ ?_ ?_ ?_ ?_
  · rw [hm1, hs2]
  · exact hbound
  · rw [hm2, hs5]
  · intro q hq
    obtain ⟨ja, jb, pp, hpp, jc⟩ := hs6 q hq
    obtain ⟨hpe, hpsrc⟩ := mem_outData g x pp hpp
    have htgt : q.2.tgt < g.nextNode := by
      rw [jc]; exact (inv.edgeBound pp hpe).2
    have hsrc := List.mem_range'_1.mp jb
    refine ⟨by rw [hbound]; omega, by rw [hbound]; omega, by omega, ?_⟩
    intro hne
    exact absurd ja hne
  · intro x0 hx0 hnr
    by_cases heq : x0 = x
    · subst heq
      refine ⟨(make_nodes size .inputOp g).1, ?_, ?_, ?_⟩
      · exact alookup_ainsert _ _ _
      · exact alookup_ainsert _ _ _
      · rw [hlen]; exact hsize
    · have hnx : x0 ∉ x :: rest := by
        intro hmem
        rcases List.mem_cons.mp hmem with hh | hh
        · exact heq hh
        · exact hnr hh
      obtain ⟨l, h1, h2, h3⟩ := inv.trInputs x0 hx0 hnx
      refine ⟨l, ?_, ?_, h3⟩
      · show alookup (ainsert tracker.new_inputs x _) x0 = some l
        rw [alookup_ainsert_ne _ _ _ _ heq]
        exact h1
      · rw [alookup_ainsert_ne _ _ _ _ heq]
        exact h2
  · intro x0 v hx0 hnr
    by_cases heq : x0 = x
    · subst heq
      exfalso
      have hmem := inv.origAlive x0 (.constant v) hx0 (List.mem_cons_self _ _)
      have hlk := alookup_eq_of_mem_nodup g.nodes x0 (.constant v) hmem inv.nodesNodup
      rw [hop] at hlk
      cases hlk
    · have hnx : x0 ∉ x :: rest := by
        intro hmem
        rcases List.mem_cons.mp hmem with hh | hh
        · exact heq hh
        · exact hnr hh
      obtain ⟨y, h1, h2⟩ := inv.trConsts x0 v hx0 hnx
      refine ⟨y, ?_, h2⟩
      rw [alookup_ainsert_ne _ _ _ _ heq]
      exact h1
  · intro p hp
    have := inv.constKeys p hp
    rw [hbound]
    omega

theorem step_constant_inv (g0 : Graph) (sizes : List (Nat × Nat)) (x : Nat)
    (rest : List Nat) (esi : Esi) (tracker : InputsTracker)
    (log : List (Nat × List Nat)) (g : Graph) (v : Int) (size : Nat)
    (g2 g3 : Graph)
    (inv : LoopInv g0 sizes (x :: rest) tracker log g)
    (hop : alookup g.nodes x = some (Op.constant v))
    (hsize : alookup sizes x = some size)
    (hconn : connect_out_edges x (make_nodes size .constantOp g).1 esi
      (make_nodes size .constantOp g).2 = .ok g2)
    (hone : (make_nodes size .constantOp g).1.length = 1)
    (hmr : mark_retrieve x (make_nodes size .constantOp g).1 g2 = .ok g3) :
    LoopInv g0 sizes rest
      { tracker with
        constants := (make_nodes size .constantOp g).1.foldl
          (fun cs y => ainsert cs y v) tracker.constants }
      (ainsert log x (make_nodes size .constantOp g).1) (g3.removeNode x) := by
  obtain ⟨hs1, hs2, hs3, hs4, delta, hs5, hs6⟩ :=
    source_make_connect_spec .constantOp x size esi g g2 hconn
  obtain ⟨hm1, hm2, hm3, hm4⟩ :=
    mark_retrieve_spec x (make_nodes size .constantOp g).1 g2 g3 hmr
  have hbound : g3.nextNode = g.nextNode + size := by rw [hm3, hs4]
  have hsz1 : size = 1 := by
    rw [hs1] at hone
    simpa using hone
  have hlit : (make_nodes size .constantOp g).1 = [g.nextNode] := by
    rw [hs1, hsz1]
    rfl
  have hfold : (make_nodes size .constantOp g).1.foldl
      (fun cs y => ainsert cs y v) tracker.constants =
      ainsert tracker.constants g.nextNode v := by
    rw [hlit]
    rfl
  refine rebuild_inv g0 sizes x rest tracker _ log g g3
    (make_nodes size .constantOp g).1 .constantOp size delta inv ?_ ?_ ?_ ?_ ?_ ?_ ?_
  · rw [hm1, hs2]
  · exact hbound
  · rw [hm2, hs5]
  · intro q hq
    obtain ⟨ja, jb, pp, hpp, jc⟩ := hs6 q hq
    obtain ⟨hpe, hpsrc⟩ := mem_outData g x pp hpp
    have htgt : q.2.tgt < g.nextNode := by
      rw [jc]; exact (inv.edgeBound pp hpe).2
    have hsrc := List.mem_range'_1.mp jb
    refine ⟨by rw [hbound]; omega, by rw [hbound]; omega, by omega, ?_⟩
    intro hne
    exact absurd ja hne
  · intro x0 hx0 hnr
    by_cases heq : x0 = x
    · subst heq
      exfalso
      have hmem := inv.origAlive x0 .function hx0 (List.mem_cons_self _ _)
      have hlk := alookup_eq_of_mem_nodup g.nodes x0 .function hmem inv.nodesNodup
      rw [hop] at hlk
      cases hlk
    · have hnx : x0 ∉ x :: rest := by
        intro hmem
        rcases List.mem_cons.mp hmem with hh | hh
        · exact heq hh
        · exact hnr hh
      obtain ⟨l, h1, h2, h3⟩ := inv.trInputs x0 hx0 hnx
      refine ⟨l, h1, ?_, h3⟩
      rw [alookup_ainsert_ne _ _ _ _ heq]
      exact h2
  · intro x0 v0 hx0 hnr
    by_cases heq : x0 = x
    · subst heq
      have hmem := inv.origAlive x0 (.constant v0) hx0 (List.mem_cons_self _ _)
      have hlk := alookup_eq_of_mem_nodup g.nodes x0 (.constant v0) hmem inv.nodesNodup
      rw [hop] at hlk
      injection hlk with hlk
      injection hlk with hlk
      refine ⟨g.nextNode, ?_, ?_⟩
      · rw [alookup_ainsert, hlit]
      · show alookup ((make_nodes size .constantOp g).1.foldl
          (fun cs y => ainsert cs y v) tracker.constants) g.nextNode = some v0
        rw [hfold, alookup_ainsert, hlk]
    · have hnx : x0 ∉ x :: rest := by
        intro hmem
        rcases List.mem_cons.mp hmem with hh | hh
        · exact heq hh
        · exact hnr hh
      obtain ⟨y, h1, h2⟩ := inv.trConsts x0 v0 hx0 hnx
      have hykey : y < g.nextNode :=
        inv.constKeys (y, v0) (alookup_some_mem tracker.constants y v0 h2)
      refine ⟨y, ?_, ?_⟩
      · rw [alookup_ainsert_ne _ _ _ _ heq]
        exact h1
      · show alookup ((make_nodes size .constantOp g).1.foldl
          (fun cs y => ainsert cs y v) tracker.constants) y = some v0
        rw [hfold, alookup_ainsert_ne _ _ _ _ (by omega)]
        exact h2
  · intro p hp
    show p.1 < g3.nextNode
    rw [hbound]
    have hp2 : p ∈ ainsert tracker.constants g.nextNode v := by
      rw [← hfold]
      exact hp
    rcases mem_ainsert tracker.constants g.nextNode v p hp2 with rfl | hmem
    · show g.nextNode < g.nextNode + size
      omega
    · have := inv.constKeys p hmem
      omega

theorem scalarize_step_inv (g0 : Graph) (sizes : List (Nat × Nat)) (x : Nat)
    (rest : List Nat) (esi : Esi) (tracker : InputsTracker)
    (log : List (Nat × List Nat)) (g : Graph)
    (inv : LoopInv g0 sizes (x :: rest) tracker log g)
    (out : List Nat × Esi × InputsTracker × Graph)
    (h : scalarize_step sizes x esi tracker g = .ok out) :
    LoopInv g0 sizes rest out.2.2.1 (ainsert log x out.1) out.2.2.2 := by
  simp only [scalarize_step] at h
  split at h
  · cases h
  · rename_i size hsize
    split at h
    · cases h
    · rename_i opx hop
      split at h
      · cases h
      · rename_i little esi1 tracker1 gmid hhandled
        split at h
        · cases h
        · rename_i g2 hmr
          cases h
          split at hhandled
          · -- incoming = []
            split at hhandled
            · -- function
              split at hhandled
              · cases hhandled
              · rename_i gA hconn
                cases hhandled
                exact step_function_inv g0 sizes x rest esi tracker log g size
                  _ g2 inv hop hsize hconn hmr
            · -- constant
              rename_i v
              split at hhandled
              · cases hhandled
              · rename_i gA hconn
                split at hhandled
                · rename_i hone
                  cases hhandled
                  exact step_constant_inv g0 sizes x rest esi tracker log g v size
                    _ g2 inv hop hsize hconn hone hmr
                · cases hhandled
            · cases hhandled
          · -- incoming = [yy]
            rename_i yy hinc
            have hyy : yy ∈ g.inData x := by
              rw [← mem_sortByInput]
              rw [hinc]
              exact List.mem_cons_self _ _
            split at hhandled
            · -- recip
              split at hhandled
              · cases hhandled
              · rename_i r hpw
                cases hhandled
                exact step_pointwise_inv g0 sizes x rest esi tracker log g
                  .recip .recip size r g2 inv hop
                  (fun hh => Op.noConfusion hh) (fun v hh => Op.noConfusion hh)
                  hpw hmr
            · -- sumReduce
              rename_i ax
              split at hhandled
              · cases hhandled
              · rename_i r hrd
                cases hhandled
                exact step_reduce_inv g0 sizes x rest esi tracker log g
                  .addOp (.sumReduce ax) size ax yy r g2 inv hop
                  (fun hh => Op.noConfusion hh) (fun v hh => Op.noConfusion hh)
                  hyy hrd hmr
            · -- maxReduce
              rename_i ax
              split at hhandled
              · cases hhandled
              · rename_i r hrd
                cases hhandled
                exact step_reduce_inv g0 sizes x rest esi tracker log g
                  .maxOp (.maxReduce ax) size ax yy r g2 inv hop
                  (fun hh => Op.noConfusion hh) (fun v hh => Op.noConfusion hh)
                  hyy hrd hmr
            · cases hhandled
          · -- incoming = [ll, rr]
            rename_i ll rr hinc
            split at hhandled
            · -- add
              split at hhandled
              · cases hhandled
              · rename_i r hpw
                cases hhandled
                exact step_pointwise_inv g0 sizes x rest esi tracker log g
                  .addOp .addOp size r g2 inv hop
                  (fun hh => Op.noConfusion hh) (fun v hh => Op.noConfusion hh)
                  hpw hmr
            · -- mul
              split at hhandled
              · cases hhandled
              · rename_i r hpw
                cases hhandled
                exact step_pointwise_inv g0 sizes x rest esi tracker log g
                  .mulOp .mulOp size r g2 inv hop
                  (fun hh => Op.noConfusion hh) (fun v hh => Op.noConfusion hh)
                  hpw hmr
            · -- lessThan
              split at hhandled
              · cases hhandled
              · rename_i r hpw
                cases hhandled
                exact step_pointwise_inv g0 sizes x rest esi tracker log g
                  .lessThan .lessThan size r g2 inv hop
                  (fun hh => Op.noConfusion hh) (fun v hh => Op.noConfusion hh)
                  hpw hmr
            · cases hhandled
          · cases hhandled

theorem scalarize_go_inv (g0 : Graph) (sizes : List (Nat × Nat)) :
    ∀ (pi : List Nat) (esi : Esi) (tracker : InputsTracker)
      (log : List (Nat × List Nat)) (g : Graph)
      (out : InputsTracker × List (Nat × List Nat) × Graph),
      LoopInv g0 sizes pi tracker log g →
      scalarize_go sizes pi esi tracker log g = .ok out →
      LoopInv g0 sizes [] out.1 out.2.1 out.2.2 := by
  intro pi
  induction pi with
  | nil =>
    intro esi tracker log g out hinv h
    simp only [scalarize_go] at h
    cases h
    exact hinv
  | cons x rest ih =>
    intro esi tracker log g out hinv h
    simp only [scalarize_go] at h
    split at h
    · cases h
    · rename_i little esi1 tracker1 g1 hstep
      exact ih esi1 tracker1 (ainsert log x little) g1 out
        (scalarize_step_inv g0 sizes x rest esi tracker log g hinv
          (little, esi1, tracker1, g1) hstep) h

theorem initial_inv (g : Graph) (sizes : List (Nat × Nat)) (order : List Nat)
    (hwf : WellFormed g) (ht : toposort g = .ok order) :
    LoopInv g sizes order.reverse ⟨[], []⟩ [] g := by
  obtain ⟨hwfE, hwfN, hwfD⟩ := hwf
  obtain ⟨hmem, hnd⟩ := toposort_spec g order ht hwfD
  refine ⟨List.nodup_reverse.mpr hnd, ?_, hwfD, hwfN, ?_, ?_, ?_, ?_, ?_, ?_, ?_⟩
  · intro x op hm _
    exact hm
  · intro a ha
    rw [List.mem_reverse] at ha
    have := (hmem a).mp ha
    obtain ⟨q, hq, rfl⟩ := List.mem_map.mp this
    exact hwfN q hq
  · intro p hp
    exact ⟨(hwfE p hp).2.2.2.1, (hwfE p hp).2.2.2.2⟩
  · intro p hp
    exact (hwfE p hp).2.2.1
  · intro p hp _
    rw [List.mem_reverse]
    apply (hmem _).mpr
    obtain ⟨⟨q, hq, hq2⟩, _⟩ := hwfE p hp
    exact List.mem_map.mpr ⟨q, hq, hq2⟩
  · intro x hx hnx
    exfalso
    apply hnx
    rw [List.mem_reverse]
    apply (hmem x).mpr
    exact List.mem_map.mpr ⟨(x, .function), hx, rfl⟩
  · intro x v hx hnx
    exfalso
    apply hnx
    rw [List.mem_reverse]
    apply (hmem x).mpr
    exact List.mem_map.mpr ⟨(x, .constant v), hx, rfl⟩
  · intro p hp
    cases hp

theorem compile_inv (g : Graph) (r : ScalarizeResult) (hwf : WellFormed g)
    (hc : scalarize_compile g = .ok r) :
    ∃ sizes, compute_sizes g = .ok sizes ∧
      LoopInv g sizes [] r.tracker r.log r.graph := by
  simp only [scalarize_compile] at hc
  split at hc
  · cases hc
  · rename_i sizes hsizes
    split at hc
    · cases hc
    · rename_i order horder
      split at hc
      · cases hc
      · rename_i tracker log g1 hgo
        cases hc
        exact ⟨sizes, hsizes,
          scalarize_go_inv g sizes order.reverse [] ⟨[], []⟩ [] g
            (tracker, log, g1) (initial_inv g sizes order hwf horder) hgo⟩

theorem compute_sizes_go_lookup (g : Graph) :
    ∀ (l : List (Nat × Op)) (s : List (Nat × Nat)),
      compute_sizes_go g l = .ok s →
      ∀ x n, alookup s x = some n → get_own_size g x = .ok n := by
  intro l
  induction l with
  | nil =>
    intro s h x n hl
    cases h
    cases hl
  | cons p rest ih =>
    intro s h x n hl
    obtain ⟨y, opy⟩ := p
    simp only [compute_sizes_go] at h
    split at h
    · cases h
    · rename_i ny hy
      split at h
      · cases h
      · rename_i srest hrest
        cases h
        simp only [alookup] at hl
        by_cases hxy : y = x
        · rw [if_pos hxy] at hl
          cases hl
          rw [← hxy]
          exact hy
        · rw [if_neg hxy] at hl
          exact ih srest hrest x n hl

/-- Claim C2: when the Scalarize pass completes on a well-formed input graph
(every original node processed and deleted), every edge remaining in the
output graph carries the trivial rank-0 Shape Tracker. -/
theorem claim_C2 (g : Graph) (r : ScalarizeResult) (hwf : WellFormed g)
    (hc : scalarize_compile g = .ok r) : TrivialShapes r.graph := by
  obtain ⟨sizes, _, inv⟩ := compile_inv g r hwf hc
  intro p hp
  by_contra hne
  have := inv.shapeInv p hp hne
  cases this

/-- The compiled result of the single-input graph, used as a witness. -/
def resultInput1 : ScalarizeResult :=
  (scalarize_compile gInput1).toOption.getD ⟨⟨[], []⟩, gInput1, []⟩

/-- Claim C2 witness: the single-retrieval-input graph compiles and the
resulting graph has only trivial-shape edges. -/
theorem claim_C2_witness : WellFormed gInput1 ∧ TrivialShapes resultInput1.graph :=
  ⟨by decide, claim_C2 gInput1 resultInput1 (by decide) rfl⟩

/-- Claim C5 (amended): for every original Constant node, the finalized
tracker's constants map holds the literal value keyed by the identity of the
constant's single replacement scalar node (recorded in the log), not by the
original node identity. -/
theorem claim_C5 (g : Graph) (r : ScalarizeResult) (hwf : WellFormed g)
    (hc : scalarize_compile g = .ok r) (x : Nat) (v : Int)
    (hx : (x, Op.constant v) ∈ g.nodes) :
    ∃ y, alookup r.log x = some [y] ∧ alookup r.tracker.constants y = some v := by
  obtain ⟨sizes, _, inv⟩ := compile_inv g r hwf hc
  refine inv.trConsts x v hx ?_
  intro h0
  cases h0

/-- The compiled result of the single-constant graph, used as a witness. -/
def resultConst7 : ScalarizeResult :=
  (scalarize_compile gConst7).toOption.getD ⟨⟨[], []⟩, gConst7, []⟩

/-- Claim C5 witness: constant node 0 with literal 7 has its single
replacement node carrying the value in the constants map. -/
theorem claim_C5_witness :
    WellFormed gConst7 ∧ (0, Op.constant 7) ∈ gConst7.nodes ∧
      ∃ y, alookup resultConst7.log 0 = some [y] ∧
        alookup resultConst7.tracker.constants y = some 7 :=
  ⟨by decide, by decide, claim_C5 gConst7 resultConst7 (by decide) rfl 0 7 (by decide)⟩

/-- Claim C6: for every original Input (`Function`) node `x`, the finalized
tracker's inputs map holds, keyed by `x`'s original identity, exactly the
replacement little-node list of `x` (as recorded in the replacement log, in
creation order, which is ascending flattened-index order by construction),
whose length is the element count of `x`'s physical output shape. -/
theorem claim_C6 (g : Graph) (r : ScalarizeResult) (hwf : WellFormed g)
    (hc : scalarize_compile g = .ok r) (x : Nat)
    (hx : (x, Op.function) ∈ g.nodes) :
    ∃ l, alookup r.tracker.new_inputs x = some l ∧ alookup r.log x = some l ∧
      get_own_size g x = .ok l.length := by
  obtain ⟨sizes, hsizes, inv⟩ := compile_inv g r hwf hc
  obtain ⟨l, h1, h2, h3⟩ := inv.trInputs x hx (by intro h0; cases h0)
  exact ⟨l, h1, h2, compute_sizes_go_lookup g g.nodes sizes hsizes x l.length h3⟩

/-- The compiled result of the (2,3)-input graph, used as a witness. -/
def resultInput6 : ScalarizeResult :=
  (scalarize_compile gInput6).toOption.getD ⟨⟨[], []⟩, gInput6, []⟩

/-- Claim C6 witness: the input node of declared shape (2,3) gets an inputs
map entry of length equal to its 6-element count. -/
theorem claim_C6_witness :
    WellFormed gInput6 ∧ (0, Op.function) ∈ gInput6.nodes ∧
      ∃ l, alookup resultInput6.tracker.new_inputs 0 = some l ∧
        alookup resultInput6.log 0 = some l ∧
        get_own_size gInput6 0 = .ok l.length :=
  ⟨by decide, by decide, claim_C6 gInput6 resultInput6 (by decide) rfl 0 (by decide)⟩

theorem renameGraph_id (g : Graph) : renameGraph id g = g := by
  show Graph.mk (g.nodes.map id) (g.edges.map id) (g.to_retrieve.map id)
    g.nextNode g.nextEdge = g
  rw [List.map_id, List.map_id, List.map_id]

theorem renameTracker_id (t : InputsTracker) : renameTracker id t = t := by
  show InputsTracker.mk (t.new_inputs.map (fun p => (p.1, p.2.map id)))
    (t.constants.map id) = t
  rw [List.map_id]
  have hni : ∀ (l : List (Nat × List Nat)), l.map (fun p => (p.1, p.2.map id)) = l := by
    intro l
    induction l with
    | nil => rfl
    | cons a rest ih => simp [ih]
  rw [hni]

/-- Claim C7: compiling the same input graph twice produces equal results,
hence structurally isomorphic output graphs (same node kinds, same edge
topology) and the same tracker, via the identity renaming. -/
theorem claim_C7 (g : Graph) (r1 r2 : ScalarizeResult)
    (h1 : scalarize_compile g = .ok r1) (h2 : scalarize_compile g = .ok r2) :
    r1 = r2 ∧ OutputIso r1 r2 := by
  rw [h1] at h2
  injection h2 with heq
  subst heq
  exact ⟨rfl, ⟨id, fun a b hh => hh, renameGraph_id _, renameTracker_id _⟩⟩

/-- Claim C7 witness: the single-input graph compiles, and compiling twice
gives equal, isomorphic results. -/
theorem claim_C7_witness :
    scalarize_compile gInput1 = .ok resultInput1 ∧
      resultInput1 = resultInput1 ∧ OutputIso resultInput1 resultInput1 :=
  ⟨rfl, claim_C7 gInput1 resultInput1 resultInput1 rfl rfl⟩

end ZkmlScalar
